import Mathlib

/-!
Verification of the semantic-resolution core of a RAML 1.0 parser.

The Go sources are embedded shallowly: strings become `List Char` (`Str`),
Go maps become association lists (a `GoMap` keeps the nil / non-nil map
distinction of Go as an `Option`), `interface{}` values become the
inductive `GoVal`, and functions that can abort (returned errors or
`log.Fatal` / `panic` calls) become `Except`/`Option` valued functions.
Definitions mirror the corresponding Go functions statement by statement;
entities whose defining file is not part of the sources (only their
callers are) are modelled from the specification and say so in their
doc comment.
-/

namespace Raml

/-- Strings of the embedded program, as lists of characters. -/
abbrev Str := List Char

/-- Convert a Lean string literal to the embedded string type. -/
def str (s : String) : Str := s.data

/-- Whitespace test used by the model of Go `strings.TrimSpace`. -/
def isSpaceChar (c : Char) : Bool :=
  c = ' ' || c = '\t' || c = '\n' || c = '\r'

/-- Model of Go `strings.TrimSpace` (leading part). -/
def trimLeft (s : Str) : Str := s.dropWhile isSpaceChar

/-- Model of Go `strings.TrimSpace` (trailing part). -/
def trimRight (s : Str) : Str := (s.reverse.dropWhile isSpaceChar).reverse

/-- Model of Go `strings.TrimSpace`. -/
def trimSpace (s : Str) : Str := trimRight (trimLeft s)

/-- Model of Go `strings.HasSuffix`. -/
def hasSuffix (s suf : Str) : Bool := suf.isSuffixOf s

/-- Model of Go `strings.TrimSuffix`. -/
def trimSuffix (s suf : Str) : Str :=
  if hasSuffix s suf then s.take (s.length - suf.length) else s

/-- Model of Go `strings.TrimPrefix`. -/
def trimPfx (s pre : Str) : Str :=
  if pre.isPrefixOf s then s.drop pre.length else s

/-- Does `pat` occur as a contiguous substring of `s`?
(Models `strings.Index(s, pat) >= 0` / `strings.Contains`.) -/
def hasSub (s pat : Str) : Bool :=
  if pat.isPrefixOf s then true
  else match s with
  | [] => false
  | _ :: cs => hasSub cs pat

/-- Index of the first occurrence of `pat` in `s`
(models `strings.Index`; `none` for Go's `-1`). -/
def indexOfSub (s pat : Str) : Option Nat :=
  if pat.isPrefixOf s then some 0
  else match s with
  | [] => none
  | _ :: cs => (indexOfSub cs pat).map (· + 1)

/-- Model of Go `strings.Split` on a single-character separator. -/
def splitOnChar (sep : Char) : Str → List Str
  | [] => [[]]
  | c :: cs =>
    if c = sep then [] :: splitOnChar sep cs
    else match splitOnChar sep cs with
    | [] => [[c]]
    | p :: ps => (c :: p) :: ps

/-- Model of Go `strings.Join`. -/
def joinWith (sep : Str) : List Str → Str
  | [] => []
  | [p] => p
  | p :: ps => p ++ sep ++ joinWith sep ps

/-- Scanner of `replaceAll`: walk the string left to right; a positive
counter means that many characters still belong to the occurrence just
replaced and are dropped without inspection. -/
def replaceGo (old new : Str) : Str → Nat → Str
  | [], _ => []
  | _ :: cs, Nat.succ k => replaceGo old new cs k
  | c :: cs, 0 =>
    if old.isPrefixOf (c :: cs) then
      new ++ replaceGo old new cs (old.length - 1)
    else c :: replaceGo old new cs 0

/-- Model of Go `strings.Replace(s, old, new, -1)` for a non-empty `old`:
replace every non-overlapping occurrence, scanning left to right.
For an empty `old` the Go function interleaves `new` between characters;
that case never arises here and is modelled as the identity. -/
def replaceAll (s old new : Str) : Str :=
  if old = [] then s else replaceGo old new s 0

/-- Association-list lookup modelling a Go map read (`m[k]`). -/
def alookup {α : Type} (m : List (Str × α)) (k : Str) : Option α :=
  match m with
  | [] => none
  | (k', v) :: rest => if k' = k then some v else alookup rest k

/-- A Go map value: `none` is Go's nil map, `some entries` a
(non-nil, possibly empty) map represented as an association list. -/
def GoMap (α : Type) : Type := Option (List (Str × α))

/-- Entries of a Go map; a nil map has no entries (Go iteration and
lookups on a nil map behave like an empty one). -/
def GoMap.ents {α : Type} (m : GoMap α) : List (Str × α) := m.getD []

/-- Model of `len(m)` on a Go map. -/
def GoMap.glen {α : Type} (m : GoMap α) : Nat := m.ents.length

/-- Model of a Go map read `v, ok := m[k]`. -/
def GoMap.look {α : Type} (m : GoMap α) (k : Str) : Option α := alookup m.ents k

/-- Model of a Go map write `m[k] = v`: replace the first binding of `k`
or append a new one. -/
def aupdate {α : Type} (m : List (Str × α)) (k : Str) (v : α) : List (Str × α) :=
  match m with
  | [] => [(k, v)]
  | (k', v') :: rest => if k' = k then (k, v) :: rest else (k', v') :: aupdate rest k v

/-- Model of a Go map write on a possibly-nil map (writing to a nil map
never happens in the embedded code paths; it is modelled as allocating). -/
def GoMap.store {α : Type} (m : GoMap α) (k : Str) (v : α) : GoMap α :=
  some (aupdate m.ents k v)

/-- A parameter dictionary: ephemeral mapping from parameter name to value
(Go `map[string]interface{}`; the embedded code only ever stores and
reads string-valued entries, which `fmt.Sprintf("%v", ·)` then returns
unchanged). -/
abbrev Dict := List (Str × Str)

/-! ## Substitution engine (src/resource.go) -/

/-- Modelled from the spec: the named value transforms ("inflectors")
`pluralize, singularize, upper/lower camel-case, upper/lower snake-case,
upper/lower hyphen-case`; the file defining `doInflect` and the concrete
transform functions is not among the sources. Unknown names are a fatal
configuration error, modelled as `none`. The concrete English inflection
rules are simplified suffix rules matching the repository's tests. -/
def doInflect (val : Str) (inflector : Str) : Option Str :=
  if inflector = str "!singularize" then
    some (if hasSuffix val (str "oes") then trimSuffix val (str "es")
          else trimSuffix val (str "s"))
  else if inflector = str "!pluralize" then
    some (if hasSuffix val (str "o") then val ++ str "es" else val ++ str "s")
  else if inflector = str "!uppercase" then some (val.map Char.toUpper)
  else if inflector = str "!lowercase" then some (val.map Char.toLower)
  else none

/-- Split a parameter reference at the first `|` into the real parameter
and the inflector chain (models the `strings.SplitN(param, "|", 2)`
closure inside `getParamValue`). -/
def splitParamInflect (param : Str) : Str × Str :=
  match indexOfSub param (str "|") with
  | none => (param, [])
  | some i => (trimSpace (param.take i), trimSpace (param.drop (i + 1)))

/-- `getParamValue` of src/resource.go: look a (possibly inflector-chained)
parameter up in the dictionary. `none` covers both the not-found case
(Go `("", false)`, the caller then leaves the token untouched) and the
fatal unknown-inflector `log.Fatalf` (which never returns in Go); every
theorem below stays on inflector-free parameters, where the two agree. -/
def getParamValue (param : Str) (dicts : Dict) : Option Str :=
  let (cleanParam, inflectors) := splitParamInflect param
  match alookup dicts cleanParam with
  | none => none
  | some val =>
    if inflectors = [] then some val
    else
      (splitOnChar '|' inflectors).foldl
        (fun acc inflector =>
          acc.bind (fun v => doInflect v (trimSpace inflector)))
        (some val)

/-- State of the placeholder scanner `findTokensGo`: outside any token,
having just read a `<`, inside a token collecting its body, or inside a
token having just read a `>`. -/
inductive ScanSt : Type
  | out : ScanSt
  | sawLt : ScanSt
  | ins (acc : Str) : ScanSt
  | sawGt (acc : Str) : ScanSt

/-- Character-by-character scanner of `findTokens`. -/
def findTokensGo : ScanSt → Str → List Str
  | _, [] => []
  | .out, c :: cs => findTokensGo (if c = '<' then .sawLt else .out) cs
  | .sawLt, c :: cs => findTokensGo (if c = '<' then .ins [] else .out) cs
  | .ins acc, c :: cs =>
    if c = '>' then findTokensGo (.sawGt acc) cs
    else findTokensGo (.ins (acc ++ [c])) cs
  | .sawGt acc, c :: cs =>
    if c = '>' then (str "<<" ++ acc ++ str ">>") :: findTokensGo .out cs
    else findTokensGo (.ins (acc ++ ['>', c])) cs

/-- Modelled from the spec: the placeholder scanner standing for
`dcRe.FindAllString(words, -1)` (the file defining the regular expression
`dcRe` is not among the sources).  Per the spec, a placeholder token has
the form `<<name>>` (or `<<name | inflector...>>`): the scanner returns,
left to right, every substring starting at a `<<` and ending at the first
following `>>`. -/
def findTokens (s : Str) : List Str := findTokensGo .out s

/-- `removeParamBracket` of `substituteParams` (src/resource.go):
trim spaces, then strip the surrounding double chevrons. -/
def removeParamBracket (param : Str) : Str :=
  let param := trimSpace param
  (param.drop 2).dropLast.dropLast

/-- `substituteParams` of src/resource.go: substitute every placeholder
of the template `words` whose parameter resolves in `dicts`, unless the
child value `toReplace` is non-empty and chevron-free (child wins). -/
def substituteParams (toReplace words : Str) (dicts : Dict) : Str :=
  if toReplace ≠ [] ∧ ¬hasSub toReplace (str "<<") ∧ ¬hasSub toReplace (str ">>") then
    toReplace
  else if words = [] then toReplace
  else
    (findTokens words).foldl
      (fun w p =>
        match getParamValue (removeParamBracket p) dicts with
        | none => w
        | some pVal => replaceAll w p pVal)
      words

/-- C1: if the child value is a non-empty string containing no placeholder
markers (`<<` or `>>`), `substituteParams` returns it unchanged, whatever
the template value and the dictionary contents. -/
theorem c1_substituteParams_child_wins (child words : Str) (dicts : Dict)
    (hne : child ≠ []) (hlt : ¬hasSub child (str "<<") = true)
    (hgt : ¬hasSub child (str ">>") = true) :
    substituteParams child words dicts = child := by
  rw [substituteParams, if_pos ⟨hne, hlt, hgt⟩]

/-- Witness for C1 at a concrete input. -/
theorem c1_substituteParams_child_wins_witness :
    substituteParams (str "Custom") (str "<<x>> list") [(str "x", str "v")]
      = str "Custom" :=
  c1_substituteParams_child_wins _ _ _ (by decide) (by decide) (by decide)

/-! ## Dynamic values, properties and shapes -/

/-- A Go `interface{}` value as it occurs in decoded document trees:
nil, a scalar, or a mapping (mapping keys are modelled as strings, the
only key kind produced by the embedded code paths). -/
inductive GoVal : Type
  | vnil : GoVal
  | vstr (s : Str) : GoVal
  | vbool (b : Bool) : GoVal
  | vint (n : Int) : GoVal
  | vfloat (q : Rat) : GoVal
  | vmap (m : List (Str × GoVal)) : GoVal

/-- The `Items` record of a property.  Modelled from the spec: the file
defining `Items` and `newItems` is not among the sources; per the spec an
items value is either a type-name string or a nested shape carrying its
own `type` field, and the only observed use is its `Type` field. -/
structure ItemsT : Type where
  type : Str := []
deriving DecidableEq

/-- Modelled from the spec: `newItems` builds an `Items` record from the
dynamic items value (type-name string, or nested shape with `type`). -/
def newItems : GoVal → ItemsT
  | .vstr s => ⟨s⟩
  | .vmap m =>
    match alookup m (str "type") with
    | some (.vstr t) => ⟨t⟩
    | _ => ⟨[]⟩
  | _ => ⟨[]⟩

/-- `Property` of src/unnamed/part_002: the schema fragment of one named
field.  Go pointer fields become `Option`, `float64` becomes `Rat`. -/
structure Property : Type where
  name : Str := []
  type : GoVal := .vnil
  required : Bool := false
  enum : GoVal := .vnil
  description : Str := []
  pattern : Option Str := none
  minLength : Option Int := none
  maxLength : Option Int := none
  minimum : Option Rat := none
  maximum : Option Rat := none
  multipleOf : Option Rat := none
  format : Option Str := none
  minItems : Option Int := none
  maxItems : Option Int := none
  uniqueItems : Bool := false
  items : ItemsT := {}

/-- The dynamic argument of `toProperty`: a raw decoded value or an
already-built `Property` (Go passes both through one `interface{}`). -/
inductive PropVal : Type
  | raw (v : GoVal) : PropVal
  | prop (p : Property) : PropVal

/-- `toFloat64` closure of `toProperty`: accept int or float, anything
else panics in Go (`none` here). -/
def toFloat64 : GoVal → Option Rat
  | .vint n => some (n : Rat)
  | .vfloat q => some q
  | _ => none

/-- A Go type assertion `v.(string)`: `none` models the panic. -/
def asStr : GoVal → Option Str
  | .vstr s => some s
  | _ => none

/-- A Go type assertion `v.(bool)`: `none` models the panic. -/
def asBool : GoVal → Option Bool
  | .vbool b => some b
  | _ => none

/-- A Go type assertion `v.(int)`: `none` models the panic. -/
def asInt : GoVal → Option Int
  | .vint n => some n
  | _ => none

/-- One step of the `mapToProperty` closure of `toProperty`
(src/unnamed/part_002): interpret one key of the property mapping.
`none` models the Go panics on a wrongly-typed value and the
`log.Fatalf` on a leftover `properties` key. -/
def mapToPropertyStep (p : Property) (k : Str) (v : GoVal) : Option Property :=
  if k = str "type" then
    if p.format = none then (asStr v).map (fun s => { p with type := .vstr s })
    else some p
  else if k = str "format" then
    (asStr v).map (fun s => { p with format := some s, type := .vstr s })
  else if k = str "required" then
    (asBool v).map (fun b => { p with required := b })
  else if k = str "enum" then some { p with enum := v }
  else if k = str "description" then
    (asStr v).map (fun s => { p with description := s })
  else if k = str "minLength" then
    (asInt v).map (fun n => { p with minLength := some n })
  else if k = str "maxLength" then
    (asInt v).map (fun n => { p with maxLength := some n })
  else if k = str "pattern" then
    (asStr v).map (fun s => { p with pattern := some s })
  else if k = str "minimum" then
    (toFloat64 v).map (fun q => { p with minimum := some q })
  else if k = str "maximum" then
    (toFloat64 v).map (fun q => { p with maximum := some q })
  else if k = str "multipleOf" then
    (toFloat64 v).map (fun q => { p with multipleOf := some q })
  else if k = str "minItems" then
    (asInt v).map (fun n => { p with minItems := some n })
  else if k = str "maxItems" then
    (asInt v).map (fun n => { p with maxItems := some n })
  else if k = str "uniqueItems" then
    (asBool v).map (fun b => { p with uniqueItems := b })
  else if k = str "items" then some { p with items := newItems v }
  else if k = str "properties" then none
  else some p

/-- The `mapToProperty` closure of `toProperty`: fold the property map's
entries (Go's nondeterministic map iteration determinized to entry
order) over `mapToPropertyStep`, starting from required = true. -/
def mapToProperty (m : List (Str × GoVal)) : Option Property :=
  m.foldlM (fun p e => mapToPropertyStep p e.1 e.2) ({ required := true } : Property)

/-- Tail of `toProperty` (src/unnamed/part_002): default the empty type
string to `"string"`, install the property name, and handle a trailing
optional marker (`strings.TrimSuffix` removes one `?` and required is
forced to false). -/
def toPropertyFinish (name : Str) (prop : Property) : Property :=
  let prop1 : Property :=
    match prop.type with
    | .vstr [] => { prop with type := .vstr (str "string") }
    | _ => prop
  let prop2 : Property := { prop1 with name := name }
  if hasSuffix prop2.name (str "?") then
    { prop2 with required := false, name := trimSuffix prop2.name (str "?") }
  else prop2

/-- `toProperty` of src/unnamed/part_002.  `none` models the Go panics
on wrongly-typed dynamic values. -/
def toProperty (name : Str) (p : PropVal) : Option Property :=
  let base : Option Property :=
    match p with
    | .raw (.vstr s) => some { required := true, type := .vstr s }
    | .raw (.vmap m) => mapToProperty m
    | .prop q => some q
    | .raw _ => some { required := true }
  base.map (toPropertyFinish name)

/-- `arrayType` constant: its defining file is not among the sources; the
value `"array"` is fixed by the spec and by the comments around
`normalizeArray` ("make sure `type` value = 'array'"). -/
def arrayOfType : Str := str "array"

/-- `BodiesProperty` of src/method.go: a body's property shape.
`Properties` is a Go map (nil or entries), `Type` and `Items` are
dynamic values. -/
structure BodiesProperty : Type where
  properties : GoMap GoVal := none
  type : GoVal := .vnil
  items : GoVal := .vnil

/-- `TypeString` of src/method.go via `interfaceToString` (whose defining
file is not among the sources; modelled from the spec as the identity on
strings and the empty string on nil -- the only dynamic kinds the
embedded paths produce). -/
def interfaceToString : GoVal → Str
  | .vstr s => s
  | _ => []

/-- `TypeString` of `BodiesProperty` (src/method.go). -/
def BodiesProperty.typeString (bp : BodiesProperty) : Str :=
  interfaceToString bp.type

/-- `normalizeArray` of src/method.go, including its `!ok &&` guard
exactly as written (a string-typed `Type` always passes the guard). -/
def BodiesProperty.normalizeArray (bp : BodiesProperty) : BodiesProperty :=
  match bp.type, bp.items with
  | .vnil, _ => bp
  | _, .vnil => bp
  | t, its =>
    let so : Str × Bool := match t with
      | .vstr s => (s, true)
      | _ => ([], false)
    if ¬so.2 = true ∧ so.1 ≠ arrayOfType then bp
    else
      match its with
      | .vstr item => { bp with type := .vstr (item ++ str "[]"), items := .vnil }
      | .vmap item =>
        match alookup item (str "type") with
        | some (.vstr tip) =>
          { bp with type := .vstr (tip ++ str "[]"),
                    items := .vmap (item.filter (fun e => e.1 ≠ str "type")) }
        | _ => bp
      | _ => bp

theorem alookup_filter_ne {α : Type} (m : List (Str × α)) (k : Str) :
    alookup (m.filter (fun e => !decide (e.1 = k))) k = none := by
  induction m with
  | nil => rfl
  | cons e r ih =>
    obtain ⟨k', v⟩ := e
    by_cases h : k' = k
    · simpa [List.filter_cons, h] using ih
    · simpa [List.filter_cons, h, alookup] using ih

/-- C5: the claim says a shape whose type is a string different from
`array` is left untouched by `normalizeArray`; the code's `!ok &&` guard
(where the comment above it says "make sure `type` value = 'array'")
lets every string-typed shape through, so a `{type: object, items:
person}` shape is rewritten to `person[]` -- evaluating the code at the
failing input. -/
theorem c5_normalizeArray_nonarray_guard_bug :
    BodiesProperty.normalizeArray
        ⟨none, .vstr (str "object"), .vstr (str "person")⟩
      = ⟨none, .vstr (str "person[]"), .vnil⟩ := rfl

/-- C4: `normalizeArray` rewrites `{type: array, items: X}` (string X)
into type `X[]` clearing items, rewrites `{type: array, items: {type:
tip, ...}}` into type `tip[]` deleting the items-level type key, and is
idempotent. -/
theorem c4_normalizeArray_rewrite_idempotent :
    (∀ (props : GoMap GoVal) (x : Str),
      BodiesProperty.normalizeArray ⟨props, .vstr arrayOfType, .vstr x⟩
        = ⟨props, .vstr (x ++ str "[]"), .vnil⟩)
    ∧ (∀ (props : GoMap GoVal) (m : List (Str × GoVal)) (tip : Str),
      alookup m (str "type") = some (.vstr tip) →
      BodiesProperty.normalizeArray ⟨props, .vstr arrayOfType, .vmap m⟩
        = ⟨props, .vstr (tip ++ str "[]"),
            .vmap (m.filter (fun e => e.1 ≠ str "type"))⟩)
    ∧ (∀ bp : BodiesProperty,
      bp.normalizeArray.normalizeArray = bp.normalizeArray) := by
  refine ⟨?_, ?_, ?_⟩
  · intro props x
    simp [BodiesProperty.normalizeArray]
  · intro props m tip h
    simp [BodiesProperty.normalizeArray, h]
  · intro bp
    obtain ⟨props, t, its⟩ := bp
    cases t with
    | vnil => cases its <;> rfl
    | vstr s =>
      cases its with
      | vnil => rfl
      | vstr item => simp [BodiesProperty.normalizeArray]
      | vmap m =>
        cases hl : alookup m (str "type") with
        | none => simp [BodiesProperty.normalizeArray, hl]
        | some tv =>
          cases tv with
          | vstr tip =>
            simp [BodiesProperty.normalizeArray, hl, alookup_filter_ne]
          | vnil => simp [BodiesProperty.normalizeArray, hl]
          | vbool b => simp [BodiesProperty.normalizeArray, hl]
          | vint n => simp [BodiesProperty.normalizeArray, hl]
          | vfloat q => simp [BodiesProperty.normalizeArray, hl]
          | vmap m' => simp [BodiesProperty.normalizeArray, hl]
      | vbool b => simp [BodiesProperty.normalizeArray]
      | vint n => simp [BodiesProperty.normalizeArray]
      | vfloat q => simp [BodiesProperty.normalizeArray]
    | vbool b =>
      cases its <;> simp [BodiesProperty.normalizeArray, arrayOfType, str]
    | vint n =>
      cases its <;> simp [BodiesProperty.normalizeArray, arrayOfType, str]
    | vfloat q =>
      cases its <;> simp [BodiesProperty.normalizeArray, arrayOfType, str]
    | vmap m =>
      cases its <;> simp [BodiesProperty.normalizeArray, arrayOfType, str]

/-- Witness for C4's hypothesis-bearing conjunct at a concrete input. -/
theorem c4_normalizeArray_rewrite_idempotent_witness :
    alookup [(str "type", GoVal.vstr (str "string"))] (str "type")
        = some (.vstr (str "string"))
    ∧ BodiesProperty.normalizeArray
        ⟨none, .vstr arrayOfType, .vmap [(str "type", GoVal.vstr (str "string"))]⟩
      = ⟨none, .vstr (str "string" ++ str "[]"),
          .vmap ([(str "type", GoVal.vstr (str "string"))].filter
            (fun e => e.1 ≠ str "type"))⟩ :=
  ⟨rfl, c4_normalizeArray_rewrite_idempotent.2.1 none
    [(str "type", GoVal.vstr (str "string"))] (str "string") rfl⟩

/-- The required flag `toProperty` derives from its dynamic argument:
the last boolean `required` entry of a property mapping (default true),
the carried flag of a passed-through `Property`, true otherwise. -/
def requiredOfVal : PropVal → Bool
  | .raw (.vmap m) =>
    m.foldl (fun acc e =>
      if e.1 = str "required" then (asBool e.2).getD acc else acc) true
  | .prop q => q.required
  | _ => true

set_option maxHeartbeats 2000000 in
theorem mapToPropertyStep_required {p p' : Property} {k : Str} {v : GoVal}
    (h : mapToPropertyStep p k v = some p') :
    p'.required =
      (if k = str "required" then (asBool v).getD p.required else p.required) := by
  rw [mapToPropertyStep] at h
  by_cases h1 : k = str "type"
  · rw [if_pos h1] at h
    subst h1
    rw [if_neg (by decide)]
    by_cases hf : p.format = none
    · rw [if_pos hf] at h
      obtain ⟨s, hs, rfl⟩ := Option.map_eq_some'.mp h
      rfl
    · rw [if_neg hf] at h
      injection h with h; subst h; rfl
  rw [if_neg h1] at h
  by_cases h2 : k = str "format"
  · rw [if_pos h2] at h
    subst h2
    rw [if_neg (by decide)]
    obtain ⟨s, hs, rfl⟩ := Option.map_eq_some'.mp h
    rfl
  rw [if_neg h2] at h
  by_cases h3 : k = str "required"
  · rw [if_pos h3] at h
    rw [if_pos h3]
    obtain ⟨b, hb, rfl⟩ := Option.map_eq_some'.mp h
    rw [hb]
    rfl
  rw [if_neg h3] at h
  rw [if_neg h3]
  by_cases h4 : k = str "enum"
  · rw [if_pos h4] at h; injection h with h; subst h; rfl
  rw [if_neg h4] at h
  by_cases h5 : k = str "description"
  · rw [if_pos h5] at h
    obtain ⟨s, hs, rfl⟩ := Option.map_eq_some'.mp h
    rfl
  rw [if_neg h5] at h
  by_cases h6 : k = str "minLength"
  · rw [if_pos h6] at h
    obtain ⟨n, hn, rfl⟩ := Option.map_eq_some'.mp h
    rfl
  rw [if_neg h6] at h
  by_cases h7 : k = str "maxLength"
  · rw [if_pos h7] at h
    obtain ⟨n, hn, rfl⟩ := Option.map_eq_some'.mp h
    rfl
  rw [if_neg h7] at h
  by_cases h8 : k = str "pattern"
  · rw [if_pos h8] at h
    obtain ⟨s, hs, rfl⟩ := Option.map_eq_some'.mp h
    rfl
  rw [if_neg h8] at h
  by_cases h9 : k = str "minimum"
  · rw [if_pos h9] at h
    obtain ⟨q, hq, rfl⟩ := Option.map_eq_some'.mp h
    rfl
  rw [if_neg h9] at h
  by_cases h10 : k = str "maximum"
  · rw [if_pos h10] at h
    obtain ⟨q, hq, rfl⟩ := Option.map_eq_some'.mp h
    rfl
  rw [if_neg h10] at h
  by_cases h11 : k = str "multipleOf"
  · rw [if_pos h11] at h
    obtain ⟨q, hq, rfl⟩ := Option.map_eq_some'.mp h
    rfl
  rw [if_neg h11] at h
  by_cases h12 : k = str "minItems"
  · rw [if_pos h12] at h
    obtain ⟨n, hn, rfl⟩ := Option.map_eq_some'.mp h
    rfl
  rw [if_neg h12] at h
  by_cases h13 : k = str "maxItems"
  · rw [if_pos h13] at h
    obtain ⟨n, hn, rfl⟩ := Option.map_eq_some'.mp h
    rfl
  rw [if_neg h13] at h
  by_cases h14 : k = str "uniqueItems"
  · rw [if_pos h14] at h
    obtain ⟨b, hb, rfl⟩ := Option.map_eq_some'.mp h
    rfl
  rw [if_neg h14] at h
  by_cases h15 : k = str "items"
  · rw [if_pos h15] at h; injection h with h; subst h; rfl
  rw [if_neg h15] at h
  by_cases h16 : k = str "properties"
  · rw [if_pos h16] at h; exact Option.noConfusion h
  rw [if_neg h16] at h
  injection h with h; subst h; rfl

theorem mapToProperty_required :
    ∀ (m : List (Str × GoVal)) (p0 q : Property),
      m.foldlM (fun p e => mapToPropertyStep p e.1 e.2) p0 = some q →
      q.required = m.foldl (fun acc e =>
        if e.1 = str "required" then (asBool e.2).getD acc else acc)
        p0.required := by
  intro m
  induction m with
  | nil => intro p0 q h; cases h; rfl
  | cons e rest ih =>
    intro p0 q h
    obtain ⟨k, v⟩ := e
    rw [List.foldlM_cons] at h
    cases hs : mapToPropertyStep p0 k v with
    | none => rw [hs] at h; cases h
    | some p1 =>
      rw [hs] at h
      simp only [Option.bind_eq_bind, Option.some_bind, Option.bind_some,
        Option.pure_def] at h
      have hreq := mapToPropertyStep_required hs
      have := ih p1 q h
      simp only [List.foldl_cons]
      rw [this, hreq]

theorem toPropertyFinish_spec (name : Str) (q : Property) :
    (toPropertyFinish name q).name
      = (if hasSuffix name (str "?") then trimSuffix name (str "?") else name)
    ∧ (toPropertyFinish name q).required
      = (if hasSuffix name (str "?") then false else q.required)
    ∧ (toPropertyFinish name q).type
      = (match q.type with
          | .vstr [] => .vstr (str "string")
          | _ => q.type) := by
  unfold toPropertyFinish
  cases hm : hasSuffix name (str "?") <;>
    cases hqt : q.type <;>
    first
      | (rename_i s; cases s <;> simp [hm, hqt])
      | simp [hm, hqt]

/-- C10 counterexample: the claim says `toProperty` never returns a
property whose name ends in the optional marker; on input name `a??`
exactly one `?` is stripped and the returned name `a?` still ends in
the marker. -/
theorem c10_toProperty_double_marker_counterexample :
    (toProperty (str "a??") (.raw (.vstr (str "x")))).map Property.name
        = some (str "a?")
    ∧ hasSuffix (str "a?") (str "?") = true := ⟨rfl, rfl⟩

/-- C10 (amended): `toProperty` strips exactly one trailing `?` from the
name (so the result ends in the marker only when the input ended in two),
a stripped marker forces required to false, an unmarked name keeps the
required flag derived from the value (the last boolean `required` entry
of a mapping, the carried flag of a passed-through `Property`, else
true), the resulting type is never the empty string, and an empty type
string is defaulted to `"string"`. -/
theorem c10_toProperty_marker_amended (name : Str) (v : PropVal) (p : Property)
    (h : toProperty name v = some p) :
    p.name = (if hasSuffix name (str "?") then trimSuffix name (str "?") else name)
    ∧ (hasSuffix name (str "?") = true → p.required = false)
    ∧ (hasSuffix name (str "?") = false → p.required = requiredOfVal v)
    ∧ p.type ≠ .vstr []
    ∧ (v = .raw (.vstr []) → p.type = .vstr (str "string")) := by
  simp only [toProperty] at h
  obtain ⟨q, hq, rfl⟩ := Option.map_eq_some'.mp h
  obtain ⟨hn, hr, ht⟩ := toPropertyFinish_spec name q
  refine ⟨hn, ?_, ?_, ?_, ?_⟩
  · intro hm
    rw [hr, if_pos hm]
  · intro hm
    rw [hr, hm]
    simp only [Bool.false_eq_true, if_false]
    cases v with
    | prop q' =>
      injection hq with hq
      subst hq
      rfl
    | raw gv =>
      cases gv with
      | vstr s =>
        injection hq with hq
        subst hq
        rfl
      | vmap m =>
        unfold mapToProperty at hq
        exact mapToProperty_required m _ q hq
      | vnil => injection hq with hq; subst hq; rfl
      | vbool b => injection hq with hq; subst hq; rfl
      | vint n => injection hq with hq; subst hq; rfl
      | vfloat x => injection hq with hq; subst hq; rfl
  · rw [ht]
    cases hqt : q.type with
    | vstr s =>
      cases s with
      | nil => simp [str]
      | cons c cs => simp
    | vnil => simp
    | vbool b => simp
    | vint n => simp
    | vfloat x => simp
    | vmap m => simp
  · intro hv
    subst hv
    injection hq with hq
    subst hq
    rw [ht]

/-- Witness for C10's amended theorem at a concrete input. -/
theorem c10_toProperty_marker_amended_witness :
    toProperty (str "x?") (.raw (.vstr (str "t")))
        = some { name := str "x", type := .vstr (str "t"), required := false }
    ∧ ({ name := str "x", type := .vstr (str "t"), required := false
          : Property }).required = false :=
  ⟨rfl, (c10_toProperty_marker_amended (str "x?") (.raw (.vstr (str "t"))) _
      rfl).2.1 rfl⟩

/-! ## Inclusion preprocessor (src/parser.go) -/

/-- `bufio.Scanner` line splitting: tokens are the newline-free segments,
a trailing newline produces no extra empty token, a final unterminated
line is still yielded.  (Carriage-return stripping is not modelled; no
claim depends on it.) -/
def splitLinesGo : Str → List Str
  | [] => []
  | c :: cs =>
    if c = '\n' then [] :: splitLinesGo cs
    else
      match splitLinesGo cs with
      | [] => [[c]]
      | l :: ls => (c :: l) :: ls

/-- Append a newline to every line and concatenate (the writing pattern
of `preProcess`'s inner loop at indentation zero). -/
def unlinesGo (ls : List Str) : Str := (ls.map (· ++ ['\n'])).flatten

/-- The reference-extraction step of `preProcess` (src/parser.go lines
196-198): everything after the first `#` is split off and the trailing
`#` removed. -/
def extractIncludeRef (included : Str) : Str :=
  let rightOfDelimiter := joinWith (str "#") ((splitOnChar '#' included).drop 1)
  let included := trimSuffix included rightOfDelimiter
  trimSuffix included (str "#")

/-- The splice step of `preProcess`: write the included content line by
line, the first line unindented (it continues the including line), the
following lines indented to the column of the directive. -/
def spliceIncluded (idx : Nat) (includedContents : Str) : Str :=
  match splitLinesGo includedContents with
  | [] => []
  | l0 :: ls =>
    l0 ++ ['\n'] ++ (ls.map (fun l => List.replicate idx ' ' ++ l ++ ['\n'])).flatten

/-- `preProcess` of src/parser.go over the lines of the document.
`fs workDir name` stands for `readFileOrURL` (the blocking read of a
file or URL; `none` is a failed read).  The `utf8.Valid` replacement
branch is unrepresentable here because embedded strings are always
valid text. -/
def preProcess (fs : Str → Str → Option Str) (wd : Str) : List Str → Except Str Str
  | [] => .ok []
  | line :: rest =>
    match indexOfSub line (str "!include") with
    | none => (preProcess fs wd rest).map (fun out => line ++ ['\n'] ++ out)
    | some idx =>
      let included := line.drop (idx + (str "!include ").length)
      let ref := extractIncludeRef included
      match fs wd ref with
      | none => .error (str "Error including file " ++ ref)
      | some contents =>
        let trimmedLine := trimSpace line
        let prepender : Str :=
          if (str "type ").isPrefixOf trimmedLine
              || (str "type:").isPrefixOf trimmedLine then str "|\n"
          else ['\n']
        (preProcess fs wd rest).map
          (fun out => line.take idx ++ spliceIncluded idx (prepender ++ contents) ++ out)

theorem dropWhile_append_last {p : Char → Bool} {c : Char} (hc : p c = false) :
    ∀ xs : Str, ∃ ys, List.dropWhile p (xs ++ [c]) = ys ++ [c] := by
  intro xs
  induction xs with
  | nil => exact ⟨[], by simp [List.dropWhile, hc]⟩
  | cons x xs ih =>
    by_cases hx : p x
    · simpa [List.dropWhile, hx] using ih
    · exact ⟨x :: xs, by simp [List.dropWhile, hx]⟩

theorem trimSpace_bang (l : Str) : ∃ t, trimSpace ('!' :: l) = '!' :: t := by
  have h1 : trimLeft ('!' :: l) = '!' :: l := by
    simp [trimLeft, List.dropWhile, isSpaceChar]
  rw [trimSpace, h1, trimRight, List.reverse_cons]
  obtain ⟨ys, hys⟩ :=
    dropWhile_append_last (p := isSpaceChar) (c := '!') (by decide) l.reverse
  exact ⟨ys.reverse, by rw [hys]; simp⟩

theorem isPrefixOf_append_self (pre s : Str) :
    pre.isPrefixOf (pre ++ s) = true :=
  List.isPrefixOf_iff_prefix.mpr (List.prefix_append pre s)

theorem indexOfSub_prefix {s pat : Str} (h : pat.isPrefixOf s = true) :
    indexOfSub s pat = some 0 := by
  cases s with
  | nil => rw [indexOfSub, if_pos h]
  | cons c cs => rw [indexOfSub, if_pos h]

theorem hasSub_here {s pat : Str} (h : pat.isPrefixOf s = true) :
    hasSub s pat = true := by
  cases s with
  | nil => rw [hasSub, if_pos h]
  | cons c cs => rw [hasSub, if_pos h]

theorem hasSub_cons {s pat : Str} (c : Char) (h : hasSub s pat = true) :
    hasSub (c :: s) pat = true := by
  rw [hasSub]
  split_ifs with hp
  · rfl
  · exact h

theorem splitOnChar_no_sep {sep : Char} :
    ∀ {s : Str}, sep ∉ s → splitOnChar sep s = [s] := by
  intro s
  induction s with
  | nil => intro _; rfl
  | cons c cs ih =>
    intro h
    have hc : ¬c = sep := fun he => h (he ▸ List.mem_cons_self c cs)
    have hcs : sep ∉ cs := fun hm => h (List.mem_cons_of_mem c hm)
    rw [splitOnChar, if_neg hc, ih hcs]

theorem splitOnChar_append_sep {sep : Char} {b : Str} :
    ∀ {a : Str}, sep ∉ a →
      splitOnChar sep (a ++ sep :: b) = a :: splitOnChar sep b := by
  intro a
  induction a with
  | nil => intro _; simp [splitOnChar]
  | cons c cs ih =>
    intro h
    have hc : ¬c = sep := fun he => h (he ▸ List.mem_cons_self c cs)
    have hcs : sep ∉ cs := fun hm => h (List.mem_cons_of_mem c hm)
    rw [List.cons_append, splitOnChar, if_neg hc, ih hcs]

theorem splitOnChar_ne_nil (sep : Char) : ∀ s : Str, splitOnChar sep s ≠ [] := by
  intro s
  cases s with
  | nil => simp [splitOnChar]
  | cons c cs =>
    rw [splitOnChar]
    split_ifs
    · simp
    · cases h : splitOnChar sep cs <;> simp

theorem joinWith_splitOnChar (sep : Char) :
    ∀ s : Str, joinWith [sep] (splitOnChar sep s) = s := by
  intro s
  induction s with
  | nil => rfl
  | cons c cs ih =>
    rw [splitOnChar]
    split_ifs with hc
    · subst hc
      cases h : splitOnChar c cs with
      | nil => exact absurd h (splitOnChar_ne_nil c cs)
      | cons p ps =>
        rw [h] at ih
        rw [joinWith]
        · simp only [List.nil_append, List.singleton_append]
          rw [ih]
        · simp
    · cases h : splitOnChar sep cs with
      | nil => exact absurd h (splitOnChar_ne_nil sep cs)
      | cons p ps =>
        rw [h] at ih
        cases ps with
        | nil => rw [joinWith]; rw [joinWith] at ih; rw [ih]
        | cons q qs =>
          have hj : ∀ (a x : Str) (l : List Str),
              joinWith [sep] (a :: x :: l) = a ++ [sep] ++ joinWith [sep] (x :: l) :=
            fun a x l => rfl
          rw [hj] at ih
          rw [hj]
          simp only [List.cons_append]
          rw [ih]

theorem trimSuffix_append (x y : Str) : trimSuffix (x ++ y) y = x := by
  have hs : hasSuffix (x ++ y) y = true :=
    List.isSuffixOf_iff_suffix.mpr (List.suffix_append x y)
  rw [trimSuffix, if_pos hs, List.length_append]
  rw [Nat.add_sub_cancel]
  exact List.take_left x y

theorem hasSuffix_single_mem {s : Str} {c : Char} (h : hasSuffix s [c] = true) :
    c ∈ s := by
  have := List.isSuffixOf_iff_suffix.mp h
  exact this.subset (List.mem_singleton_self c)

theorem extractIncludeRef_no_hash {ref : Str} (href : '#' ∉ ref) :
    extractIncludeRef ref = ref := by
  rw [extractIncludeRef]
  rw [splitOnChar_no_sep href]
  simp only [List.drop_succ_cons, List.drop_nil, joinWith]
  have h1 : trimSuffix ref [] = ref := by
    have : ref = ref ++ [] := by simp
    conv_lhs => rw [this]
    exact trimSuffix_append ref []
  rw [h1, trimSuffix]
  rw [if_neg]
  intro hc
  exact href (hasSuffix_single_mem hc)

theorem extractIncludeRef_hash {ref : Str} (frag : Str) (href : '#' ∉ ref) :
    extractIncludeRef (ref ++ '#' :: frag) = ref := by
  rw [extractIncludeRef, splitOnChar_append_sep href]
  simp only [List.drop_succ_cons, List.drop_zero]
  have hj : joinWith (str "#") (splitOnChar '#' frag) = frag :=
    joinWith_splitOnChar '#' frag
  rw [hj]
  have h1 : ref ++ '#' :: frag = (ref ++ ['#']) ++ frag := by simp
  rw [h1, trimSuffix_append]
  exact trimSuffix_append ref ['#']

theorem splitLinesGo_no_newline :
    ∀ {s : Str}, '\n' ∉ s → s ≠ [] → splitLinesGo s = [s] := by
  intro s
  induction s with
  | nil => intro _ h; exact absurd rfl h
  | cons c cs ih =>
    intro h _
    have hc : ¬c = '\n' := fun he => h (he ▸ List.mem_cons_self c cs)
    have hcs : '\n' ∉ cs := fun hm => h (List.mem_cons_of_mem c hm)
    rw [splitLinesGo, if_neg hc]
    cases hcase : cs with
    | nil => rfl
    | cons d ds =>
      have := ih hcs (by simp [hcase])
      rw [hcase] at this
      rw [this]

theorem splitLinesGo_newline_cons (s : Str) :
    splitLinesGo ('\n' :: s) = [] :: splitLinesGo s := by
  rw [splitLinesGo]
  simp

theorem spliceIncluded_zero_newline (content : Str) :
    spliceIncluded 0 ('\n' :: content)
      = '\n' :: unlinesGo (splitLinesGo content) := by
  rw [spliceIncluded, splitLinesGo_newline_cons]
  simp [unlinesGo]

theorem preProcess_single_include (fs : Str → Str → Option Str) (wd : Str)
    (included content : Str)
    (hfs : fs wd (extractIncludeRef included) = some content) :
    preProcess fs wd [str "!include " ++ included]
      = .ok ('\n' :: unlinesGo (splitLinesGo content)) := by
  have hidx : indexOfSub (str "!include " ++ included) (str "!include") = some 0 := by
    apply indexOfSub_prefix
    exact isPrefixOf_append_self (str "!include") (' ' :: included)
  have hdrop : (str "!include " ++ included).drop (0 + (str "!include ").length)
      = included := List.drop_left (str "!include ") included
  obtain ⟨t, ht⟩ := trimSpace_bang (str "include " ++ included)
  have hp1 : (str "type ").isPrefixOf (trimSpace (str "!include " ++ included))
      = false := by
    rw [show trimSpace (str "!include " ++ included) = '!' :: t from ht]
    rfl
  have hp2 : (str "type:").isPrefixOf (trimSpace (str "!include " ++ included))
      = false := by
    rw [show trimSpace (str "!include " ++ included) = '!' :: t from ht]
    rfl
  rw [preProcess]
  rw [hidx]
  simp only [hdrop, hfs, hp1, hp2, Bool.or_self, Bool.false_eq_true, if_false]
  rw [preProcess]
  have hpre : (['\n'] : Str) ++ content = '\n' :: content := rfl
  rw [hpre, spliceIncluded_zero_newline]
  simp [Except.map]

/-- C6 counterexample: the claim says an `!include` directive inside
included content is expanded before splicing; `preProcess` never recurses,
so the inner directive survives verbatim in the output and the inner
file's content (`B`) is never spliced. -/
theorem c6_preProcess_inner_include_counterexample :
    preProcess
        (fun _ n => if n = str "a" then some (str "k: !include b")
                    else if n = str "b" then some (str "B") else none)
        (str "") [str "x: !include a"]
      = .ok (str "x: \n   k: !include b\n")
    ∧ hasSub (str "x: \n   k: !include b\n") (str "!include") = true
    ∧ hasSub (str "x: \n   k: !include b\n") (str "B") = false := ⟨rfl, rfl, rfl⟩

/-- C6 (amended): inclusion expansion is single-level: included content
is spliced verbatim (reindented), without re-invoking the textual
expansion on it, so an `!include` directive contained in an included
file survives in the preprocessor's result. -/
theorem c6_preProcess_single_level_amended
    (fs : Str → Str → Option Str) (wd ref inner : Str)
    (href : '#' ∉ ref) (hin : '\n' ∉ inner)
    (hfs : fs wd ref = some (str "!include " ++ inner)) :
    preProcess fs wd [str "!include " ++ ref]
      = .ok (str "\n!include " ++ inner ++ ['\n'])
    ∧ hasSub (str "\n!include " ++ inner ++ ['\n']) (str "!include") = true := by
  have hfs' : fs wd (extractIncludeRef ref) = some (str "!include " ++ inner) := by
    rw [extractIncludeRef_no_hash href]
    exact hfs
  have h1 := preProcess_single_include fs wd ref _ hfs'
  have hnl : '\n' ∉ str "!include " ++ inner := by
    intro hm
    rcases List.mem_append.mp hm with h | h
    · exact absurd h (by decide)
    · exact hin h
  have hne : (str "!include " ++ inner) ≠ [] := by simp [str]
  rw [splitLinesGo_no_newline hnl hne] at h1
  have hu : unlinesGo [str "!include " ++ inner]
      = (str "!include " ++ inner) ++ ['\n'] := by
    simp [unlinesGo]
  rw [hu] at h1
  refine ⟨h1, ?_⟩
  apply hasSub_cons
  apply hasSub_here
  show (str "!include").isPrefixOf
      (str "!include" ++ (' ' :: (inner ++ ['\n']))) = true
  exact isPrefixOf_append_self _ _

/-- Witness for C6's amended theorem at a concrete input. -/
theorem c6_preProcess_single_level_amended_witness :
    preProcess (fun _ n => if n = str "r" then some (str "!include q") else none)
        (str "") [str "!include " ++ str "r"]
      = .ok (str "\n!include " ++ str "q" ++ ['\n']) :=
  (c6_preProcess_single_level_amended
    (fun _ n => if n = str "r" then some (str "!include q") else none)
    (str "") (str "r") (str "q") (by decide) (by decide) rfl).1

/-- C7 counterexample: the claim says the text after the `#` fragment
delimiter is preserved verbatim in the output after the spliced content;
the code strips it from the reference and then discards it, so `frag`
does not occur anywhere in the preprocessed result. -/
theorem c7_preProcess_fragment_dropped_counterexample :
    preProcess (fun _ n => if n = str "a" then some (str "C") else none)
        (str "") [str "!include a#frag"]
      = .ok (str "\nC\n")
    ∧ hasSub (str "\nC\n") (str "frag") = false := ⟨rfl, rfl⟩

/-- C7 (amended): for an `!include` reference carrying a `#` fragment,
only the text before the first `#` is used as the path to read, and the
fragment text is discarded entirely: the preprocessed output is the same
as if the directive had carried no fragment at all. -/
theorem c7_preProcess_fragment_amended
    (fs : Str → Str → Option Str) (wd ref frag content : Str)
    (href : '#' ∉ ref) (hfs : fs wd ref = some content) :
    extractIncludeRef (ref ++ '#' :: frag) = ref
    ∧ preProcess fs wd [str "!include " ++ (ref ++ '#' :: frag)]
        = preProcess fs wd [str "!include " ++ ref] := by
  refine ⟨extractIncludeRef_hash frag href, ?_⟩
  have h1 := preProcess_single_include fs wd (ref ++ '#' :: frag) content
    (by rw [extractIncludeRef_hash frag href]; exact hfs)
  have h2 := preProcess_single_include fs wd ref content
    (by rw [extractIncludeRef_no_hash href]; exact hfs)
  rw [h1, h2]

/-- Witness for C7's amended theorem at a concrete input. -/
theorem c7_preProcess_fragment_amended_witness :
    extractIncludeRef (str "a" ++ '#' :: str "z") = str "a"
    ∧ preProcess (fun _ n => if n = str "a" then some (str "C") else none)
        (str "") [str "!include " ++ (str "a" ++ '#' :: str "z")]
        = preProcess (fun _ n => if n = str "a" then some (str "C") else none)
        (str "") [str "!include " ++ str "a"] :=
  c7_preProcess_fragment_amended
    (fun _ n => if n = str "a" then some (str "C") else none)
    (str "") (str "a") (str "z") (str "C") (by decide) rfl

/-! ## Data model and inheritance engine (src/method.go, src/resource.go) -/

/-- `NamedParameter`: modelled from the spec, its defining file is not
among the sources.  The observed fields are the name and the scalar
inheritable fields of §4.4 (display name, description, type, example),
all subject to child-wins placeholder substitution on inheritance. -/
structure NamedParameter : Type where
  name : Str := []
  displayName : Str := []
  description : Str := []
  type : Str := []
  example_ : Str := []

/-- `NamedParameter.inherit`: modelled from the spec (§4.4 scalar-field
policy): every scalar field is substituted child-first against the
parent's value.  The callers in src/method.go set `parent.Name` before
calling it, which is why the name participates. -/
def NamedParameter.inherit (n parent : NamedParameter) (dicts : Dict) : NamedParameter :=
  { name := substituteParams n.name parent.name dicts
    displayName := substituteParams n.displayName parent.displayName dicts
    description := substituteParams n.description parent.description dicts
    type := substituteParams n.type parent.type dicts
    example_ := substituteParams n.example_ parent.example_ dicts }

/-- Go `type Header NamedParameter` (src/method.go converts between the
two with plain casts). -/
abbrev Header := NamedParameter

/-- `DefinitionChoice` (a trait / resource-type reference with its
parameter map): modelled from the spec, its defining file is not among
the sources.  Parameter values are the strings `fmt.Sprintf("%v", ·)`
would produce. -/
structure DefinitionChoice : Type where
  name : Str := []
  parameters : Dict := []

/-- Modelled from the spec: the slice of `APIDefinition` that
`mergeTypeName` consults -- for each imported library alias, the names
of the types that library declares. -/
structure ApiDef : Type where
  libTypes : List (Str × List Str) := []

/-- `mergeTypeName`: modelled from the spec (§4.4), its defining file is
not among the sources: after substitution, a type name declared by the
library the current resource type came from (`rtName` of the form
`alias.name`) is rewritten to its library-qualified form, otherwise left
as-is. -/
def mergeTypeName (tip rtName : Str) (apiDef : ApiDef) : Str :=
  match indexOfSub rtName (str ".") with
  | none => tip
  | some i =>
    let libAlias := rtName.take i
    if tip ∈ ((alookup apiDef.libTypes libAlias).getD []) then
      libAlias ++ str "." ++ tip
    else tip

/-- `optionalTraitProperty`: modelled from the spec, its defining file is
not among the sources: a key carries the plain optional marker when it
ends in `?` but not in the escaped marker `\?`. -/
def optionalTraitProperty (name : Str) : Bool :=
  hasSuffix name (str "?") && !hasSuffix name (str "\\?")

/-- `Body` of src/method.go (per-media-type request/response body). -/
structure Body : Type where
  mediaType : Str := []
  schema : Str := []
  description : Str := []
  example_ : Str := []
  headers : GoMap Header := none

/-- `Bodies` of src/method.go: the legacy flat body plus the
`application/json` shape. -/
structure Bodies : Type where
  schema : Str := []
  description : Str := []
  example_ : Str := []
  forMIMEType : List (Str × Body) := []
  applicationJSON : Option BodiesProperty := none
  type : Str := []

/-- `TypeString` of `Property` (src/unnamed/part_002): a string type is
returned as-is, anything else falls to the default `"string"` (the
`Type`-valued case panics only for detached properties and cannot arise
from the dynamic values modelled here). -/
def Property.typeString (p : Property) : Str :=
  match p.type with
  | .vstr s => s
  | _ => str "string"

/-- `Bodies.inherit` of src/method.go.  Errors model the Go panics
reachable through `toProperty`. -/
def Bodies.inherit (b : Bodies) (parent : Bodies) (dicts : Dict) (rtName : Str)
    (apiDef : ApiDef) : Except Str Bodies := do
  let b := { b with
    schema := substituteParams b.schema parent.schema dicts
    description := substituteParams b.description parent.description dicts
    example_ := substituteParams b.example_ parent.example_ dicts
    type := mergeTypeName (substituteParams b.type parent.type dicts) rtName apiDef }
  match parent.applicationJSON with
  | none => return b
  | some pj =>
    let bj : BodiesProperty :=
      match b.applicationJSON with
      | none => { properties := some [], type := .vnil, items := .vnil }
      | some bj =>
        match bj.properties with
        | none => { bj with properties := some [] }
        | some _ => bj
    let bj := { bj with
      type := .vstr (substituteParams bj.typeString pj.typeString dicts) }
    let bj := { bj with
      type := .vstr (mergeTypeName (interfaceToString bj.type) rtName apiDef) }
    let props ← pj.properties.ents.foldlM
      (fun (acc : List (Str × GoVal)) e => do
        let (k, p) := e
        match alookup acc k with
        | some _ => return acc
        | none =>
          if hasSuffix k (str "\\?") then
            let k := (k.take (k.length - 2)) ++ str "?"
            let k := substituteParams k k dicts
            match toProperty k (.raw p) with
            | none => throw (str "panic: toProperty")
            | some prop =>
              let inheritedType := substituteParams prop.typeString prop.typeString dicts
              return aupdate acc k (.vstr (mergeTypeName inheritedType rtName apiDef))
          else if hasSuffix k (str "?") then return acc
          else
            let k := substituteParams k k dicts
            match toProperty k (.raw p) with
            | none => throw (str "panic: toProperty")
            | some prop =>
              let inheritedType := substituteParams prop.typeString prop.typeString dicts
              return aupdate acc k (.vstr (mergeTypeName inheritedType rtName apiDef)))
      bj.properties.ents
    return { b with applicationJSON := some { bj with properties := some props } }

/-- `Bodies.postProcess` of src/method.go: normalize the
`application/json` shape when present. -/
def Bodies.postProcess (b : Bodies) : Bodies :=
  match b.applicationJSON with
  | none => b
  | some bp => { b with applicationJSON := some bp.normalizeArray }

/-- The loop body of the free `inheritHeaders` (src/method.go 181-193):
merge one parent header into the child map, skipping an optional parent
key the child does not declare. -/
def inheritHeadersStep (dicts : Dict) (cs : GoMap Header) (e : Str × Header) :
    GoMap Header :=
  let (name, parent) := e
  match cs.look name with
  | none =>
    if optionalTraitProperty name then cs
    else cs.store name
      (NamedParameter.inherit ({} : NamedParameter) { parent with name := name } dicts)
  | some h =>
    cs.store name (NamedParameter.inherit h { parent with name := name } dicts)

/-- `inheritHeaders` (the free function of src/method.go lines 176-195):
additive union of parent headers into the child map, allocating the
child map when it has no entries. -/
def inheritHeaders (childs parents : GoMap Header) (dicts : Dict) : GoMap Header :=
  let childs : GoMap Header := if childs.glen = 0 then some [] else childs
  parents.ents.foldl (inheritHeadersStep dicts) childs

/-- `Response` of src/method.go. -/
structure Response : Type where
  httpCode : Str := []
  description : Str := []
  headers : GoMap Header := none
  bodies : Bodies := {}

/-- `Response.inherit` of src/method.go. -/
def Response.inherit (resp parent : Response) (dicts : Dict) (rtName : Str)
    (apiDef : ApiDef) : Except Str Response := do
  let description := substituteParams resp.description parent.description dicts
  let bodies ← resp.bodies.inherit parent.bodies dicts rtName apiDef
  return { resp with
    description := description
    bodies := bodies
    headers := inheritHeaders resp.headers parent.headers dicts }

/-- `Response.postProcess` of src/method.go. -/
def Response.postProcess (resp : Response) : Response :=
  { resp with bodies := resp.bodies.postProcess }

/-- `methodProps`/`Method` of src/method.go (annotations, which no
resolution step reads, are omitted). -/
structure Method : Type where
  name : Str := []
  displayName : Str := []
  description : Str := []
  queryParameters : GoMap NamedParameter := none
  headers : GoMap Header := none
  queryString : GoMap NamedParameter := none
  responses : GoMap Response := none
  bodies : Bodies := {}
  protocols : List Str := []
  is : List DefinitionChoice := []
  securedBy : List DefinitionChoice := []
  resourceTypeName : Str := []

/-- `newMethod` of src/method.go. -/
def newMethod (name : Str) : Method := { name := name }

/-- `appendStrNotExist`: modelled from the spec (§4.4 list-as-set
policy), its defining file is not among the sources: append only when
not already present (case-sensitive exact match). -/
def appendStrNotExist (p : Str) (arr : List Str) : List Str :=
  if p ∈ arr then arr else arr ++ [p]

/-- `Method.inheritProtocols` of src/method.go. -/
def Method.inheritProtocols (m : Method) (parent : List Str) : Method :=
  { m with protocols := parent.foldl (fun acc p => appendStrNotExist p acc) m.protocols }

/-- `Method.inheritHeaders` of src/method.go (wrapper over the free
`inheritHeaders`). -/
def Method.inheritHeadersM (m : Method) (parents : GoMap Header) (dicts : Dict) : Method :=
  { m with headers := inheritHeaders m.headers parents dicts }

/-- The loop body of `Method.inheritQueryParams` (src/method.go 203-214):
like headers, but the result is stored under the inherited parameter's
own (substituted) name. -/
def inheritQueryParamsStep (dicts : Dict) (cs : GoMap NamedParameter)
    (e : Str × NamedParameter) : GoMap NamedParameter :=
  let (name, parent) := e
  match cs.look name with
  | none =>
    if optionalTraitProperty name then cs
    else
      let qp := NamedParameter.inherit { name := name } { parent with name := name } dicts
      cs.store qp.name qp
  | some qp0 =>
    let qp := NamedParameter.inherit qp0 { parent with name := name } dicts
    cs.store qp.name qp

/-- `Method.inheritQueryParams` of src/method.go. -/
def Method.inheritQueryParams (m : Method) (parents : GoMap NamedParameter)
    (dicts : Dict) : Method :=
  let qps : GoMap NamedParameter :=
    if m.queryParameters.glen = 0 then some [] else m.queryParameters
  { m with queryParameters := parents.ents.foldl (inheritQueryParamsStep dicts) qps }

/-- The loop body of `Method.inheritResponses` (src/method.go 233-243):
like headers, with the `Response.inherit` call fallible. -/
def inheritResponsesStep (dicts : Dict) (rtName : Str) (apiDef : ApiDef)
    (cs : GoMap Response) (e : Str × Response) : Except Str (GoMap Response) :=
  let (code, rParent) := e
  match cs.look code with
  | none =>
    if optionalTraitProperty code then return cs
    else do
      let resp ← Response.inherit { httpCode := code } rParent dicts rtName apiDef
      return cs.store code resp
  | some resp0 => do
    let resp ← Response.inherit resp0 rParent dicts rtName apiDef
    return cs.store code resp

/-- `Method.inheritResponses` of src/method.go. -/
def Method.inheritResponses (m : Method) (parents : GoMap Response) (dicts : Dict)
    (apiDef : ApiDef) : Except Str Method := do
  let resps : GoMap Response := if m.responses.glen = 0 then some [] else m.responses
  let resps ← parents.ents.foldlM
    (inheritResponsesStep dicts m.resourceTypeName apiDef) resps
  return { m with responses := resps }

/-- `Trait`: modelled from the spec, its defining file is not among the
sources: a partial method template carrying the same inheritable fields
a method has. -/
structure Trait : Type where
  name : Str := []
  description : Str := []
  bodies : Bodies := {}
  headers : GoMap Header := none
  queryParameters : GoMap NamedParameter := none
  responses : GoMap Response := none
  protocols : List Str := []

/-- `ResourceType`: modelled from the spec, its defining file is not
among the sources: a resource template with its description, URI
parameters, and its (plain and optional) verb templates, the optional
ones being those declared with a trailing `?`. -/
structure ResourceType : Type where
  name : Str := []
  description : Str := []
  uriParameters : GoMap NamedParameter := none
  methods : List Method := []
  optionalMethods : List Method := []

/-- `resourcePathName` of src/resource.go, with the `Parent`
back-pointer chain represented as the list of URIs from the resource up
to the root: the rightmost non-URI-parameter path fragment. -/
def resourcePathName (uris : List Str) : Str :=
  match uris with
  | [] => []
  | u :: rest =>
    let uri := trimSuffix u (str "/")
    if uri ≠ [] ∧ ¬hasSuffix uri (str "\x7d") = true then
      (splitOnChar '/' uri).getLastD []
    else resourcePathName rest

/-- `initResourceTypeDicts`: modelled from the spec (§4.3), its defining
file is not among the sources: the declared template parameters plus
derived values (the resource's path name in plain, singular and plural
form, and the full resource path). -/
def initResourceTypeDicts (uris : List Str) (params : Dict) : Dict :=
  let rpn := resourcePathName uris
  params ++
    [(str "resourcePathName", rpn),
     (str "resourcePathNameSingular", (doInflect rpn (str "!singularize")).getD rpn),
     (str "resourcePathNamePlural", (doInflect rpn (str "!pluralize")).getD rpn),
     (str "resourcePath", uris.reverse.flatten)]

/-- `initTraitDicts`: modelled from the spec (§4.3): the resource-derived
values plus the owning method's verb name. -/
def initTraitDicts (uris : List Str) (methodName : Str) (params : Dict) : Dict :=
  initResourceTypeDicts uris params ++ [(str "methodName", methodName)]

/-- `Method.inheritFromATrait` of src/method.go (merge order:
description, bodies, headers, responses, query parameters, protocols). -/
def Method.inheritFromATrait (m : Method) (uris : List Str) (t : Trait)
    (params : Dict) (apiDef : ApiDef) : Except Str Method := do
  let dicts := initTraitDicts uris m.name params
  let m := { m with description := substituteParams m.description t.description dicts }
  let bodies ← m.bodies.inherit t.bodies dicts m.resourceTypeName apiDef
  let m := { m with bodies := bodies }
  let m := m.inheritHeadersM t.headers dicts
  let m ← m.inheritResponses t.responses dicts apiDef
  let m := m.inheritQueryParams t.queryParameters dicts
  return m.inheritProtocols t.protocols

/-- `Method.inheritFromTraits` of src/method.go: resolve and merge every
referenced trait in order; a reference with no matching declaration is a
fatal error naming it. -/
def Method.inheritFromTraits (m : Method) (uris : List Str)
    (is : List DefinitionChoice) (traitsMap : List (Str × Trait))
    (apiDef : ApiDef) : Except Str Method :=
  is.foldlM
    (fun m tDef => do
      match alookup traitsMap tDef.name with
      | none => throw (str "invalid traits name:" ++ tDef.name)
      | some t => m.inheritFromATrait uris t tDef.parameters apiDef)
    m

/-- `Method.inheritFromResourceType` of src/method.go (merge order:
description, display name, bodies, headers, query parameters, responses,
protocols). -/
def Method.inheritFromResourceType (m : Method) (uris : List Str) (rtm : Method)
    (typeParams : Dict) (apiDef : ApiDef) : Except Str Method := do
  let dicts := initResourceTypeDicts uris typeParams
  let m := { m with
    description := substituteParams m.description rtm.description dicts
    displayName := substituteParams m.displayName rtm.displayName dicts }
  let bodies ← m.bodies.inherit rtm.bodies dicts m.resourceTypeName apiDef
  let m := { m with bodies := bodies }
  let m := m.inheritHeadersM rtm.headers dicts
  let m := m.inheritQueryParams rtm.queryParameters dicts
  let m ← m.inheritResponses rtm.responses dicts apiDef
  return m.inheritProtocols rtm.protocols

/-- `Method.postProcess` of src/method.go: set the verb name, merge the
resource-level and method-level traits, then post-process responses and
the request body.  (The append to `r.Methods` is performed by the
caller, `setMethods`, in this value-passing embedding.) -/
def Method.postProcess (m : Method) (uris : List Str) (rIs : List DefinitionChoice)
    (name : Str) (traitsMap : List (Str × Trait)) (apiDef : ApiDef) :
    Except Str Method := do
  let m := { m with name := name }
  let m ← m.inheritFromTraits uris (rIs ++ m.is) traitsMap apiDef
  let resps : GoMap Response :=
    some (m.responses.ents.map (fun e => (e.1, e.2.postProcess)))
  return { m with responses := resps, bodies := m.bodies.postProcess }

/-- The scalar part of `Resource` (src/resource.go); the nested-resource
forest lives in the `Resource` inductive below, and the `Parent`
back-pointer is represented by the ancestor-URI lists threaded through
post-processing. -/
structure ResourceCore : Type where
  uri : Str := []
  displayName : Str := []
  description : Str := []
  get : Option Method := none
  patch : Option Method := none
  put : Option Method := none
  head : Option Method := none
  post : Option Method := none
  delete : Option Method := none
  options : Option Method := none
  is : List DefinitionChoice := []
  rtype : Option DefinitionChoice := none
  securedBy : List DefinitionChoice := []
  uriParameters : GoMap NamedParameter := none
  methods : List Method := []

/-- `Resource` of src/resource.go: its scalar fields plus the ordered
nested resources. -/
inductive Resource : Type
  | mk (core : ResourceCore) (nested : List (Str × Resource)) : Resource

/-- The scalar fields of a resource. -/
def Resource.core : Resource → ResourceCore
  | .mk c _ => c

/-- The nested resources. -/
def Resource.nested : Resource → List (Str × Resource)
  | .mk _ n => n

/-- `MethodByName` of src/resource.go. -/
def ResourceCore.methodByName (c : ResourceCore) (name : Str) : Option Method :=
  if name = str "GET" then c.get
  else if name = str "POST" then c.post
  else if name = str "PUT" then c.put
  else if name = str "PATCH" then c.patch
  else if name = str "HEAD" then c.head
  else if name = str "DELETE" then c.delete
  else if name = str "OPTIONS" then c.options
  else none

/-- `assignMethod` of src/resource.go; the `log.Fatalf` on an invalid
verb name becomes an error. -/
def ResourceCore.assignMethod (c : ResourceCore) (m : Method) (name : Str) :
    Except Str ResourceCore :=
  if name = str "GET" then .ok { c with get := some m }
  else if name = str "POST" then .ok { c with post := some m }
  else if name = str "PUT" then .ok { c with put := some m }
  else if name = str "PATCH" then .ok { c with patch := some m }
  else if name = str "HEAD" then .ok { c with head := some m }
  else if name = str "DELETE" then .ok { c with delete := some m }
  else if name = str "OPTIONS" then .ok { c with options := some m }
  else .error (str "assignMethod fatal error, invalid method name:" ++ name)

/-- `getResourceType` of src/resource.go: `ok none` when no resource
type is referenced, an error naming the reference when it has no
matching declaration. -/
def ResourceCore.getResourceType (c : ResourceCore)
    (resourceTypes : List (Str × ResourceType)) : Except Str (Option ResourceType) :=
  match c.rtype with
  | none => .ok none
  | some dc =>
    if dc.name = [] then .ok none
    else
      match alookup resourceTypes dc.name with
      | some rt => .ok (some rt)
      | none => .error (str "can't find resource type named :" ++ dc.name)

/-- `setMethods` of src/resource.go: post-process the declared verbs in
source order, collecting each processed method into the `Methods` list
(the Go code appends inside `Method.postProcess` through the aliased
pointer). -/
def ResourceCore.setMethods (c : ResourceCore) (uris : List Str)
    (traitsMap : List (Str × Trait)) (apiDef : ApiDef) : Except Str ResourceCore := do
  let c ← match c.get with
    | none => pure c
    | some m => do
      let m' ← m.postProcess uris c.is (str "GET") traitsMap apiDef
      pure { c with get := some m', methods := c.methods ++ [m'] }
  let c ← match c.post with
    | none => pure c
    | some m => do
      let m' ← m.postProcess uris c.is (str "POST") traitsMap apiDef
      pure { c with post := some m', methods := c.methods ++ [m'] }
  let c ← match c.put with
    | none => pure c
    | some m => do
      let m' ← m.postProcess uris c.is (str "PUT") traitsMap apiDef
      pure { c with put := some m', methods := c.methods ++ [m'] }
  let c ← match c.patch with
    | none => pure c
    | some m => do
      let m' ← m.postProcess uris c.is (str "PATCH") traitsMap apiDef
      pure { c with patch := some m', methods := c.methods ++ [m'] }
  let c ← match c.head with
    | none => pure c
    | some m => do
      let m' ← m.postProcess uris c.is (str "HEAD") traitsMap apiDef
      pure { c with head := some m', methods := c.methods ++ [m'] }
  let c ← match c.delete with
    | none => pure c
    | some m => do
      let m' ← m.postProcess uris c.is (str "DELETE") traitsMap apiDef
      pure { c with delete := some m', methods := c.methods ++ [m'] }
  match c.options with
    | none => pure c
    | some m => do
      let m' ← m.postProcess uris c.is (str "OPTIONS") traitsMap apiDef
      pure { c with options := some m', methods := c.methods ++ [m'] }

/-- `inheritMethods` of src/resource.go: every plain resource-type verb
is merged (creating the method when absent), optional verbs only when
the resource already declares them. -/
def ResourceCore.inheritMethods (c : ResourceCore) (uris : List Str)
    (rt : ResourceType) (apiDef : ApiDef) : Except Str ResourceCore := do
  let typeParams := (c.rtype.map (fun dc => dc.parameters)).getD []
  let rtypeName := (c.rtype.map (fun dc => dc.name)).getD []
  let c ← rt.methods.foldlM
    (fun (c : ResourceCore) rtm => do
      let m := match c.methodByName rtm.name with
        | none => newMethod rtm.name
        | some m => m
      let m := { m with resourceTypeName := rtypeName }
      let m' ← m.inheritFromResourceType uris rtm typeParams apiDef
      c.assignMethod m' rtm.name)
    c
  rt.optionalMethods.foldlM
    (fun (c : ResourceCore) rtm => do
      match c.methodByName rtm.name with
      | none => pure c
      | some m => do
        let m := { m with resourceTypeName := rtypeName }
        let m' ← m.inheritFromResourceType uris rtm typeParams apiDef
        c.assignMethod m' rtm.name)
    c

/-- `inheritResourceType` of src/resource.go: resolve the referenced
resource type (failing on a missing name), then merge description, URI
parameters and methods. -/
def ResourceCore.inheritResourceType (c : ResourceCore) (uris : List Str)
    (resourceTypes : List (Str × ResourceType)) (apiDef : ApiDef) :
    Except Str ResourceCore := do
  match ← c.getResourceType resourceTypes with
  | none => return c
  | some rt =>
    let typeParams := (c.rtype.map (fun dc => dc.parameters)).getD []
    let dicts := initResourceTypeDicts uris typeParams
    let c := { c with description := substituteParams c.description rt.description dicts }
    let ups : GoMap NamedParameter :=
      if c.uriParameters.glen = 0 then some [] else c.uriParameters
    let ups := rt.uriParameters.ents.foldl
      (fun (acc : GoMap NamedParameter) e =>
        let (name, up) := e
        let p := (acc.look name).getD {}
        acc.store name (p.inherit up dicts))
      ups
    let c := { c with uriParameters := ups }
    c.inheritMethods uris rt apiDef

mutual

/-- `Resource.postProcess` of src/resource.go: set the trimmed URI,
post-process the declared methods (traits), inherit from the resource
type, then recurse into the nested resources.  An error anywhere aborts
the whole resolution: no resource value is produced. -/
def Resource.postProcess (r : Resource) (uri : Str) (ancestors : List Str)
    (resourceTypes : List (Str × ResourceType)) (traitsMap : List (Str × Trait))
    (apiDef : ApiDef) : Except Str Resource :=
  match r with
  | .mk core nested => do
    let core := { core with uri := trimSpace uri }
    let uris := core.uri :: ancestors
    let core ← core.setMethods uris traitsMap apiDef
    let core ← core.inheritResourceType uris resourceTypes apiDef
    let nested' ← postProcessNested uris resourceTypes traitsMap apiDef nested
    return .mk core nested'

/-- The recursion of `Resource.postProcess` over the nested resources
(each child's URI is its mapping key, its ancestors the processed
parent's URIs). -/
def postProcessNested (ancestors : List Str)
    (resourceTypes : List (Str × ResourceType)) (traitsMap : List (Str × Trait))
    (apiDef : ApiDef) : List (Str × Resource) → Except Str (List (Str × Resource))
  | [] => .ok []
  | (k, r) :: rest => do
    let r' ← r.postProcess k ancestors resourceTypes traitsMap apiDef
    let rest' ← postProcessNested ancestors resourceTypes traitsMap apiDef rest
    return (k, r') :: rest'

end

/-! ## Lemmas about substitution, map updates and the inherit folds -/

theorem substituteParams_child {child words : Str} {dicts : Dict}
    (hne : child ≠ []) (h1 : hasSub child (str "<<") = false)
    (h2 : hasSub child (str ">>") = false) :
    substituteParams child words dicts = child := by
  rw [substituteParams, if_pos ⟨hne, by simp [h1], by simp [h2]⟩]

theorem hasSub_cons_false {c : Char} {s pat : Str} (h : hasSub (c :: s) pat = false) :
    pat.isPrefixOf (c :: s) = false ∧ hasSub s pat = false := by
  rw [hasSub] at h
  by_cases hp : pat.isPrefixOf (c :: s) = true
  · rw [if_pos hp] at h; cases h
  · rw [if_neg hp] at h
    exact ⟨Bool.eq_false_iff.mpr hp, h⟩

theorem findTokensGo_no_lt :
    ∀ s : Str,
      (hasSub s (str "<<") = false → findTokensGo .out s = [])
      ∧ (hasSub ('<' :: s) (str "<<") = false → findTokensGo .sawLt s = []) := by
  intro s
  induction s with
  | nil => exact ⟨fun _ => rfl, fun _ => rfl⟩
  | cons c cs ih =>
    constructor
    · intro h
      obtain ⟨hpfx, hcs⟩ := hasSub_cons_false h
      rw [findTokensGo]
      by_cases hc : c = '<'
      · rw [if_pos hc]
        apply ih.2
        rw [← hc]
        exact h
      · rw [if_neg hc]
        exact ih.1 hcs
    · intro h
      obtain ⟨hpfx, h1⟩ := hasSub_cons_false h
      have hc : ¬c = '<' := by
        intro he
        subst he
        simp [str, List.isPrefixOf] at hpfx
      obtain ⟨hpfx1, hcs⟩ := hasSub_cons_false h1
      rw [findTokensGo, if_neg hc]
      exact ih.1 hcs

theorem substituteParams_empty_child {n : Str} (dicts : Dict)
    (hne : n ≠ []) (h : hasSub n (str "<<") = false) :
    substituteParams [] n dicts = n := by
  rw [substituteParams, if_neg (by simp), if_neg hne, findTokens,
    (findTokensGo_no_lt n).1 h]
  rfl

theorem alookup_aupdate_ne {α : Type} {n k : Str} (m : List (Str × α)) (v : α)
    (h : n ≠ k) : alookup (aupdate m n v) k = alookup m k := by
  induction m with
  | nil => simp [aupdate, alookup, h]
  | cons e r ih =>
    obtain ⟨k', v'⟩ := e
    by_cases hk' : k' = n
    · subst hk'
      simp [aupdate, alookup, h]
    · simp only [aupdate, if_neg hk', alookup]
      by_cases hkk : k' = k
      · simp [hkk]
      · simp [hkk, ih]

theorem look_store_ne {α : Type} (cs : GoMap α) {n k : Str} (v : α) (h : n ≠ k) :
    (cs.store n v).look k = cs.look k := by
  rw [GoMap.store, GoMap.look, GoMap.look]
  show alookup (aupdate cs.ents n v) k = alookup cs.ents k
  exact alookup_aupdate_ne cs.ents v h

theorem look_store_isSome {α : Type} (cs : GoMap α) (n : Str) (v : α) :
    (cs.store n v).isSome = true := rfl

theorem alookup_mem {α : Type} : ∀ {m : List (Str × α)} {k : Str} {v : α},
    alookup m k = some v → (k, v) ∈ m := by
  intro m
  induction m with
  | nil => intro k v h; cases h
  | cons e r ih =>
    intro k v h
    obtain ⟨k', v'⟩ := e
    rw [alookup] at h
    by_cases hk : k' = k
    · rw [if_pos hk] at h
      injection h with h
      subst h
      subst hk
      exact List.mem_cons_self _ _
    · rw [if_neg hk] at h
      exact List.mem_cons_of_mem _ (ih h)

theorem mem_aupdate {α : Type} : ∀ {m : List (Str × α)} {k : Str} {v : α}
    {e : Str × α}, e ∈ aupdate m k v → e = (k, v) ∨ e ∈ m := by
  intro m
  induction m with
  | nil =>
    intro k v e h
    simp [aupdate] at h
    exact Or.inl h
  | cons e0 r ih =>
    intro k v e h
    obtain ⟨k', v'⟩ := e0
    rw [aupdate] at h
    by_cases hk : k' = k
    · rw [if_pos hk] at h
      rcases List.mem_cons.mp h with h | h
      · exact Or.inl h
      · exact Or.inr (List.mem_cons_of_mem _ h)
    · rw [if_neg hk] at h
      rcases List.mem_cons.mp h with h | h
      · exact Or.inr (by rw [h]; exact List.mem_cons_self _ _)
      · rcases ih h with h | h
        · exact Or.inl h
        · exact Or.inr (List.mem_cons_of_mem _ h)

/-- Key sanity for a parent map key: non-empty and free of both chevron
markers, so substitution leaves it alone. -/
def keyOk (n : Str) : Prop :=
  n ≠ [] ∧ hasSub n (str "<<") = false ∧ hasSub n (str ">>") = false

/-- The query-parameter name bookkeeping: every stored parameter either
carries its map key as its name or has not had a name set (the decoder
leaves it empty). -/
def qpNamesOk (cs : GoMap NamedParameter) : Prop :=
  ∀ e ∈ cs.ents, e.2.name = e.1 ∨ e.2.name = []

theorem qpNamesOk_store {cs : GoMap NamedParameter} {k : Str} {v : NamedParameter}
    (hnames : qpNamesOk cs) (hv : v.name = k) : qpNamesOk (cs.store k v) := by
  intro e he
  rcases mem_aupdate he with h | h
  · subst h
    exact Or.inl hv
  · exact hnames e h

theorem inheritQueryParamsStep_shape {dicts : Dict} {cs : GoMap NamedParameter}
    {e : Str × NamedParameter} (hok : keyOk e.1) (hnames : qpNamesOk cs) :
    inheritQueryParamsStep dicts cs e = cs
    ∨ ∃ v, inheritQueryParamsStep dicts cs e = cs.store e.1 v ∧ v.name = e.1 := by
  obtain ⟨name, parent⟩ := e
  obtain ⟨hne, hlt, hgt⟩ := hok
  cases hl : cs.look name with
  | none =>
    by_cases hop : optionalTraitProperty name = true
    · left
      rw [inheritQueryParamsStep]
      simp only [hl, if_pos hop]
    · have hv : (NamedParameter.inherit { name := name }
          { parent with name := name } dicts).name = name := by
        rw [NamedParameter.inherit]
        exact substituteParams_child hne hlt hgt
      right
      refine ⟨NamedParameter.inherit { name := name }
        { parent with name := name } dicts, ?_, hv⟩
      rw [inheritQueryParamsStep]
      simp only [hl, if_neg hop]
      rw [hv]
  | some qp0 =>
    have hmem := alookup_mem hl
    have hv : (NamedParameter.inherit qp0 { parent with name := name } dicts).name
        = name := by
      rw [NamedParameter.inherit]
      show substituteParams qp0.name name dicts = name
      rcases hnames (name, qp0) hmem with hn | hn
      · rw [hn]
        exact substituteParams_child hne hlt hgt
      · rw [hn]
        exact substituteParams_empty_child dicts hne hlt
    right
    refine ⟨NamedParameter.inherit qp0 { parent with name := name } dicts, ?_, hv⟩
    rw [inheritQueryParamsStep]
    simp only [hl]
    rw [hv]

theorem inheritHeadersStep_none {dicts : Dict} {k : Str}
    (hk : optionalTraitProperty k = true) (cs : GoMap Header) (e : Str × Header)
    (h : cs.look k = none) : (inheritHeadersStep dicts cs e).look k = none := by
  obtain ⟨name, parent⟩ := e
  by_cases hn : name = k
  · subst hn
    rw [inheritHeadersStep]
    simp only [h, if_pos hk]
  · cases hl : cs.look name with
    | none =>
      rw [inheritHeadersStep]
      simp only [hl]
      by_cases hop : optionalTraitProperty name = true
      · rw [if_pos hop]; exact h
      · rw [if_neg hop, look_store_ne _ _ hn]; exact h
    | some h0 =>
      rw [inheritHeadersStep]
      simp only [hl]
      rw [look_store_ne _ _ hn]
      exact h

theorem inheritHeadersStep_other {dicts : Dict} {k : Str} (cs : GoMap Header)
    (e : Str × Header) (hn : e.1 ≠ k) :
    (inheritHeadersStep dicts cs e).look k = cs.look k := by
  obtain ⟨name, parent⟩ := e
  cases hl : cs.look name with
  | none =>
    rw [inheritHeadersStep]
    simp only [hl]
    by_cases hop : optionalTraitProperty name = true
    · rw [if_pos hop]
    · rw [if_neg hop, look_store_ne _ _ hn]
  | some h0 =>
    rw [inheritHeadersStep]
    simp only [hl]
    rw [look_store_ne _ _ hn]

theorem foldl_headers_none {dicts : Dict} {k : Str}
    (hk : optionalTraitProperty k = true) :
    ∀ (l : List (Str × Header)) (cs : GoMap Header), cs.look k = none →
      (l.foldl (inheritHeadersStep dicts) cs).look k = none := by
  intro l
  induction l with
  | nil => intro cs h; exact h
  | cons e rest ih =>
    intro cs h
    exact ih _ (inheritHeadersStep_none hk cs e h)

theorem foldl_headers_keep {dicts : Dict} {k : Str} :
    ∀ (l : List (Str × Header)), (∀ e ∈ l, e.1 ≠ k) → ∀ cs : GoMap Header,
      (l.foldl (inheritHeadersStep dicts) cs).look k = cs.look k := by
  intro l
  induction l with
  | nil => intro _ cs; rfl
  | cons e rest ih =>
    intro hl cs
    rw [List.foldl_cons, ih (fun e' he' => hl e' (List.mem_cons_of_mem _ he')),
      inheritHeadersStep_other cs e (hl e (List.mem_cons_self _ _))]

theorem look_alloc {α : Type} (childs : GoMap α) (k : Str) :
    GoMap.look (if childs.glen = 0 then (some [] : GoMap α) else childs) k
      = childs.look k := by
  by_cases h : childs.glen = 0
  · rw [if_pos h]
    cases childs with
    | none => rfl
    | some l =>
      have : l = [] := List.length_eq_zero.mp h
      subst this
      rfl
  · rw [if_neg h]

theorem foldl_qp_none {dicts : Dict} {k : Str}
    (hk : optionalTraitProperty k = true) :
    ∀ (l : List (Str × NamedParameter)), (∀ e ∈ l, keyOk e.1) →
      ∀ cs : GoMap NamedParameter, qpNamesOk cs → cs.look k = none →
      (l.foldl (inheritQueryParamsStep dicts) cs).look k = none := by
  intro l
  induction l with
  | nil => intro _ cs _ h; exact h
  | cons e rest ih =>
    intro hl cs hnames h
    rw [List.foldl_cons]
    by_cases hek : e.1 = k
    · have hstep : inheritQueryParamsStep dicts cs e = cs := by
        obtain ⟨name, parent⟩ := e
        simp only at hek
        subst hek
        rw [inheritQueryParamsStep]
        simp only [h, if_pos hk]
      rw [hstep]
      exact ih (fun e' he' => hl e' (List.mem_cons_of_mem _ he')) cs hnames h
    · rcases inheritQueryParamsStep_shape (hl e (List.mem_cons_self _ _)) hnames with
        hstep | ⟨v, hstep, hv⟩
      · rw [hstep]
        exact ih (fun e' he' => hl e' (List.mem_cons_of_mem _ he')) cs hnames h
      · rw [hstep]
        refine ih (fun e' he' => hl e' (List.mem_cons_of_mem _ he')) _
          (qpNamesOk_store hnames hv) ?_
        rw [look_store_ne _ _ hek]
        exact h

theorem foldl_qp_keep {dicts : Dict} {k : Str} :
    ∀ (l : List (Str × NamedParameter)), (∀ e ∈ l, keyOk e.1 ∧ e.1 ≠ k) →
      ∀ cs : GoMap NamedParameter, qpNamesOk cs →
      (l.foldl (inheritQueryParamsStep dicts) cs).look k = cs.look k := by
  intro l
  induction l with
  | nil => intro _ cs _; rfl
  | cons e rest ih =>
    intro hl cs hnames
    rw [List.foldl_cons]
    rcases inheritQueryParamsStep_shape (hl e (List.mem_cons_self _ _)).1 hnames with
      hstep | ⟨v, hstep, hv⟩
    · rw [hstep]
      exact ih (fun e' he' => hl e' (List.mem_cons_of_mem _ he')) cs hnames
    · rw [hstep]
      rw [ih (fun e' he' => hl e' (List.mem_cons_of_mem _ he')) _
        (qpNamesOk_store hnames hv)]
      rw [look_store_ne _ _ (hl e (List.mem_cons_self _ _)).2]

theorem except_bind_ok {ε α β : Type} (x : α) (f : α → Except ε β) :
    (Except.ok x >>= f) = f x := rfl

theorem except_bind_error {ε α β : Type} (e : ε) (f : α → Except ε β) :
    ((Except.error e : Except ε α) >>= f) = Except.error e := rfl

theorem inheritResponsesStep_none {dicts : Dict} {rtName : Str} {apiDef : ApiDef}
    {k : Str} (hk : optionalTraitProperty k = true) (cs : GoMap Response)
    (e : Str × Response) (h : cs.look k = none) :
    ∀ cs', inheritResponsesStep dicts rtName apiDef cs e = .ok cs' →
      cs'.look k = none := by
  obtain ⟨code, rParent⟩ := e
  by_cases hn : code = k
  · subst hn
    rw [inheritResponsesStep]
    simp only [h, if_pos hk]
    intro cs' h'
    injection h' with h'
    rw [← h']
    exact h
  · cases hl : cs.look code with
    | none =>
      rw [inheritResponsesStep]
      simp only [hl]
      by_cases hop : optionalTraitProperty code = true
      · rw [if_pos hop]
        intro cs' h'
        injection h' with h'
        rw [← h']
        exact h
      · rw [if_neg hop]
        cases hri : Response.inherit { httpCode := code } rParent dicts rtName apiDef with
        | error err =>
          simp only [hri, except_bind_error]
          intro cs' h'
          exact Except.noConfusion h'
        | ok resp =>
          simp only [hri, except_bind_ok]
          intro cs' h'
          injection h' with h'
          rw [← h', look_store_ne _ resp hn]
          exact h
    | some resp0 =>
      rw [inheritResponsesStep]
      simp only [hl]
      cases hri : Response.inherit resp0 rParent dicts rtName apiDef with
      | error err =>
        simp only [hri, except_bind_error]
        intro cs' h'
        exact Except.noConfusion h'
      | ok resp =>
        simp only [hri, except_bind_ok]
        intro cs' h'
        injection h' with h'
        rw [← h', look_store_ne _ resp hn]
        exact h

theorem inheritResponsesStep_other {dicts : Dict} {rtName : Str} {apiDef : ApiDef}
    {k : Str} (cs : GoMap Response) (e : Str × Response) (hn : e.1 ≠ k) :
    ∀ cs', inheritResponsesStep dicts rtName apiDef cs e = .ok cs' →
      cs'.look k = cs.look k := by
  obtain ⟨code, rParent⟩ := e
  simp only at hn
  cases hl : cs.look code with
  | none =>
    rw [inheritResponsesStep]
    simp only [hl]
    by_cases hop : optionalTraitProperty code = true
    · rw [if_pos hop]
      intro cs' h'
      injection h' with h'
      rw [← h']
    · rw [if_neg hop]
      cases hri : Response.inherit { httpCode := code } rParent dicts rtName apiDef with
      | error err =>
        simp only [hri, except_bind_error]
        intro cs' h'
        exact Except.noConfusion h'
      | ok resp =>
        simp only [hri, except_bind_ok]
        intro cs' h'
        injection h' with h'
        rw [← h', look_store_ne _ resp hn]
  | some resp0 =>
    rw [inheritResponsesStep]
    simp only [hl]
    cases hri : Response.inherit resp0 rParent dicts rtName apiDef with
    | error err =>
      simp only [hri, except_bind_error]
      intro cs' h'
      exact Except.noConfusion h'
    | ok resp =>
      simp only [hri, except_bind_ok]
      intro cs' h'
      injection h' with h'
      rw [← h', look_store_ne _ resp hn]

theorem foldlM_resp_none {dicts : Dict} {rtName : Str} {apiDef : ApiDef} {k : Str}
    (hk : optionalTraitProperty k = true) :
    ∀ (l : List (Str × Response)) (cs : GoMap Response), cs.look k = none →
      ∀ cs', l.foldlM (inheritResponsesStep dicts rtName apiDef) cs = .ok cs' →
      cs'.look k = none := by
  intro l
  induction l with
  | nil =>
    intro cs h cs' h'
    rw [List.foldlM_nil] at h'
    injection h' with h'
    rw [← h']
    exact h
  | cons e rest ih =>
    intro cs h cs' h'
    rw [List.foldlM_cons] at h'
    cases hstep : inheritResponsesStep dicts rtName apiDef cs e with
    | error err =>
      rw [hstep, except_bind_error] at h'
      exact Except.noConfusion h'
    | ok cs1 =>
      rw [hstep, except_bind_ok] at h'
      exact ih cs1 (inheritResponsesStep_none hk cs e h cs1 hstep) cs' h'

theorem foldlM_resp_keep {dicts : Dict} {rtName : Str} {apiDef : ApiDef} {k : Str} :
    ∀ (l : List (Str × Response)), (∀ e ∈ l, e.1 ≠ k) →
      ∀ (cs : GoMap Response) cs',
      l.foldlM (inheritResponsesStep dicts rtName apiDef) cs = .ok cs' →
      cs'.look k = cs.look k := by
  intro l
  induction l with
  | nil =>
    intro _ cs cs' h'
    rw [List.foldlM_nil] at h'
    injection h' with h'
    rw [← h']
  | cons e rest ih =>
    intro hl cs cs' h'
    rw [List.foldlM_cons] at h'
    cases hstep : inheritResponsesStep dicts rtName apiDef cs e with
    | error err =>
      rw [hstep, except_bind_error] at h'
      exact Except.noConfusion h'
    | ok cs1 =>
      rw [hstep, except_bind_ok] at h'
      rw [ih (fun e' he' => hl e' (List.mem_cons_of_mem _ he')) cs1 cs' h']
      exact inheritResponsesStep_other cs e (hl e (List.mem_cons_self _ _)) cs1 hstep

/-- C2 counterexample: parent declares optional header `X?`, the child
declares `X` (without the marker, with an empty description): the merge
leaves the child map completely unchanged -- `X` keeps its empty
description instead of the inherited one (`p`, as the substitution
conjunct shows), falsifying "the merged value is the inherited one". -/
theorem c2_optional_marker_counterexample :
    inheritHeaders (some [(str "X", ({} : Header))])
        (some [(str "X?", ({ description := str "p" } : Header))]) []
      = some [(str "X", ({} : Header))]
    ∧ substituteParams ({} : Header).description (str "p") [] = str "p" := ⟨rfl, rfl⟩

/-- C2 (amended): in each of the three merges -- headers, query
parameters and responses -- a parent key carrying the plain optional
marker that the child does not declare under that exact marked name is
skipped entirely and is absent from the merged collection; a key the
child declares without the marker is left untouched by the merge -- it
keeps the child's own value and no inheritance is applied to it.
(For query parameters, parent keys are assumed non-empty and free of
chevron markers, and stored child names consistent with their keys,
which every decoded document satisfies.) -/
theorem c2_optional_skip_amended :
    (∀ (childs parents : GoMap Header) (dicts : Dict) (k : Str),
      optionalTraitProperty k = true → childs.look k = none →
      (inheritHeaders childs parents dicts).look k = none)
    ∧ (∀ (childs parents : GoMap Header) (dicts : Dict) (k : Str),
      (∀ e ∈ parents.ents, e.1 ≠ k) →
      (inheritHeaders childs parents dicts).look k = childs.look k)
    ∧ (∀ (m : Method) (parents : GoMap NamedParameter) (dicts : Dict) (k : Str),
      optionalTraitProperty k = true → m.queryParameters.look k = none →
      (∀ e ∈ parents.ents, keyOk e.1) → qpNamesOk m.queryParameters →
      ((m.inheritQueryParams parents dicts).queryParameters).look k = none)
    ∧ (∀ (m : Method) (parents : GoMap NamedParameter) (dicts : Dict) (k : Str),
      (∀ e ∈ parents.ents, keyOk e.1 ∧ e.1 ≠ k) → qpNamesOk m.queryParameters →
      ((m.inheritQueryParams parents dicts).queryParameters).look k
        = m.queryParameters.look k)
    ∧ (∀ (m : Method) (parents : GoMap Response) (dicts : Dict) (apiDef : ApiDef)
        (k : Str) (m' : Method),
      optionalTraitProperty k = true → m.responses.look k = none →
      m.inheritResponses parents dicts apiDef = .ok m' →
      m'.responses.look k = none)
    ∧ (∀ (m : Method) (parents : GoMap Response) (dicts : Dict) (apiDef : ApiDef)
        (k : Str) (m' : Method),
      (∀ e ∈ parents.ents, e.1 ≠ k) →
      m.inheritResponses parents dicts apiDef = .ok m' →
      m'.responses.look k = m.responses.look k) := by
  refine ⟨?_, ?_, ?_, ?_, ?_, ?_⟩
  · intro childs parents dicts k hk h
    rw [inheritHeaders]
    apply foldl_headers_none hk
    rw [look_alloc]
    exact h
  · intro childs parents dicts k h
    rw [inheritHeaders, foldl_headers_keep _ h, look_alloc]
  · intro m parents dicts k hk h hpar hnames
    rw [Method.inheritQueryParams]
    apply foldl_qp_none hk _ hpar
    · intro e he
      by_cases hz : m.queryParameters.glen = 0
      · rw [if_pos hz] at he
        cases he
      · rw [if_neg hz] at he
        exact hnames e he
    · rw [look_alloc]
      exact h
  · intro m parents dicts k hpar hnames
    rw [Method.inheritQueryParams]
    show (parents.ents.foldl (inheritQueryParamsStep dicts) _).look k
        = m.queryParameters.look k
    rw [foldl_qp_keep _ hpar, look_alloc]
    intro e he
    by_cases hz : m.queryParameters.glen = 0
    · rw [if_pos hz] at he
      cases he
    · rw [if_neg hz] at he
      exact hnames e he
  · intro m parents dicts apiDef k m' hk h hok
    rw [Method.inheritResponses] at hok
    cases hf : parents.ents.foldlM (inheritResponsesStep dicts m.resourceTypeName apiDef)
        (if m.responses.glen = 0 then (some [] : GoMap Response) else m.responses) with
    | error err =>
      rw [hf, except_bind_error] at hok
      exact Except.noConfusion hok
    | ok resps =>
      rw [hf, except_bind_ok] at hok
      injection hok with hok
      rw [← hok]
      show resps.look k = none
      apply foldlM_resp_none hk parents.ents _ _ resps hf
      rw [look_alloc]
      exact h
  · intro m parents dicts apiDef k m' hpar hok
    rw [Method.inheritResponses] at hok
    cases hf : parents.ents.foldlM (inheritResponsesStep dicts m.resourceTypeName apiDef)
        (if m.responses.glen = 0 then (some [] : GoMap Response) else m.responses) with
    | error err =>
      rw [hf, except_bind_error] at hok
      exact Except.noConfusion hok
    | ok resps =>
      rw [hf, except_bind_ok] at hok
      injection hok with hok
      rw [← hok]
      show resps.look k = m.responses.look k
      rw [foldlM_resp_keep parents.ents hpar _ resps hf, look_alloc]

/-- Witness for C2's amended theorem at a concrete input. -/
theorem c2_optional_skip_amended_witness :
    optionalTraitProperty (str "X?") = true
    ∧ (inheritHeaders (some [(str "X", ({} : Header))])
        (some [(str "X?", ({ description := str "p" } : Header))]) []).look (str "X?")
      = none
    ∧ (({ responses := some [] } : Method)).responses.look (str "403?") = none :=
  ⟨rfl,
   c2_optional_skip_amended.1 (some [(str "X", ({} : Header))])
    (some [(str "X?", ({ description := str "p" } : Header))]) [] (str "X?")
    rfl rfl,
   c2_optional_skip_amended.2.2.2.2.1 {} (some [(str "403?", ({} : Response))]) [] {}
    (str "403?") ({ responses := some [] } : Method) rfl rfl rfl⟩

theorem inheritHeadersStep_isSome {dicts : Dict} (cs : GoMap Header)
    (e : Str × Header) (h : cs.isSome = true) :
    (inheritHeadersStep dicts cs e).isSome = true := by
  obtain ⟨name, parent⟩ := e
  cases hl : cs.look name with
  | none =>
    rw [inheritHeadersStep]
    simp only [hl]
    by_cases hop : optionalTraitProperty name = true
    · rw [if_pos hop]; exact h
    · rw [if_neg hop]; rfl
  | some h0 =>
    rw [inheritHeadersStep]
    simp only [hl]
    rfl

theorem inheritQueryParamsStep_isSome {dicts : Dict} (cs : GoMap NamedParameter)
    (e : Str × NamedParameter) (h : cs.isSome = true) :
    (inheritQueryParamsStep dicts cs e).isSome = true := by
  obtain ⟨name, parent⟩ := e
  cases hl : cs.look name with
  | none =>
    rw [inheritQueryParamsStep]
    simp only [hl]
    by_cases hop : optionalTraitProperty name = true
    · rw [if_pos hop]; exact h
    · rw [if_neg hop]; rfl
  | some qp0 =>
    rw [inheritQueryParamsStep]
    simp only [hl]
    rfl

theorem alloc_isSome {α : Type} (childs : GoMap α) :
    (if childs.glen = 0 then (some [] : GoMap α) else childs).isSome = true := by
  by_cases h : childs.glen = 0
  · rw [if_pos h]; rfl
  · rw [if_neg h]
    cases childs with
    | none => exact absurd rfl h
    | some l => rfl

/-- C9 counterexample: a resource with one GET method, no traits and no
resource type: after post-processing the method's headers and query
parameters are still the Go nil map (`none`), while responses was
allocated -- falsifying "headers, query parameters and responses are
never nil for every method". -/
theorem c9_nil_headers_counterexample :
    ((Resource.mk { get := some {} } []).postProcess (str "/users") [] [] []
        {}).map (fun r => r.core.get.map (fun m =>
          (m.headers, m.queryParameters, m.responses)))
      = .ok (some (none, none, some [])) := rfl

/-- C9 (amended): after post-processing, every method's responses map is
allocated (never nil), and the header / query-parameter maps are
allocated by every inheritance merge (so they are non-nil whenever a
trait or resource-type template was merged); a method that references no
traits and no resource type keeps its decoded nil headers and query
parameters. -/
theorem c9_collections_amended :
    (∀ (m : Method) (uris : List Str) (rIs : List DefinitionChoice) (name : Str)
        (traitsMap : List (Str × Trait)) (apiDef : ApiDef) (m' : Method),
      m.postProcess uris rIs name traitsMap apiDef = .ok m' →
      m'.responses.isSome = true)
    ∧ (∀ (childs parents : GoMap Header) (dicts : Dict),
      (inheritHeaders childs parents dicts).isSome = true)
    ∧ (∀ (m : Method) (parents : GoMap NamedParameter) (dicts : Dict),
      ((m.inheritQueryParams parents dicts).queryParameters).isSome = true) := by
  refine ⟨?_, ?_, ?_⟩
  · intro m uris rIs name traitsMap apiDef m' h
    rw [Method.postProcess] at h
    cases hx : Method.inheritFromTraits { m with name := name } uris
        (rIs ++ m.is) traitsMap apiDef with
    | error e =>
      rw [hx] at h
      simp [Except.bind] at h
    | ok m1 =>
      rw [hx] at h
      simp only [Except.bind] at h
      injection h with h
      rw [← h]
      rfl
  · intro childs parents dicts
    rw [inheritHeaders]
    have hstep : ∀ (l : List (Str × Header)) (cs : GoMap Header), cs.isSome = true →
        (l.foldl (inheritHeadersStep dicts) cs).isSome = true := by
      intro l
      induction l with
      | nil => intro cs h; exact h
      | cons e rest ih => intro cs h; exact ih _ (inheritHeadersStep_isSome cs e h)
    exact hstep _ _ (alloc_isSome childs)
  · intro m parents dicts
    rw [Method.inheritQueryParams]
    have hstep : ∀ (l : List (Str × NamedParameter)) (cs : GoMap NamedParameter),
        cs.isSome = true →
        (l.foldl (inheritQueryParamsStep dicts) cs).isSome = true := by
      intro l
      induction l with
      | nil => intro cs h; exact h
      | cons e rest ih => intro cs h; exact ih _ (inheritQueryParamsStep_isSome cs e h)
    exact hstep _ _ (alloc_isSome m.queryParameters)

/-- Witness for C9's amended theorem at a concrete input. -/
theorem c9_collections_amended_witness :
    Method.postProcess {} [] [] (str "GET") [] {}
      = .ok ({ name := str "GET", responses := some [] } : Method)
    ∧ (({ name := str "GET", responses := some [] } : Method)).responses.isSome
      = true :=
  ⟨rfl, c9_collections_amended.1 {} [] [] (str "GET") [] {} _ rfl⟩

/-- C3: a resource referencing an undeclared resource-type name fails
resolution with an error naming it; a method referencing an undeclared
trait fails with an error naming the first such trait; and the failure
propagates out of `Resource.postProcess`, so no resolved resource value
is produced (the `Except` carries only the error). -/
theorem c3_missing_reference_error :
    (∀ (c : ResourceCore) (rts : List (Str × ResourceType)) (dc : DefinitionChoice),
      c.rtype = some dc → dc.name ≠ [] → alookup rts dc.name = none →
      c.getResourceType rts
        = .error (str "can't find resource type named :" ++ dc.name))
    ∧ (∀ (m : Method) (uris : List Str) (is : List DefinitionChoice)
        (traitsMap : List (Str × Trait)) (apiDef : ApiDef),
      (∃ tDef ∈ is, alookup traitsMap tDef.name = none) →
      ∃ e, m.inheritFromTraits uris is traitsMap apiDef = .error e)
    ∧ (∀ (m : Method) (uris : List Str) (tDef : DefinitionChoice)
        (is₂ : List DefinitionChoice) (traitsMap : List (Str × Trait))
        (apiDef : ApiDef),
      alookup traitsMap tDef.name = none →
      m.inheritFromTraits uris (tDef :: is₂) traitsMap apiDef
        = .error (str "invalid traits name:" ++ tDef.name))
    ∧ (∀ (core : ResourceCore) (nested : List (Str × Resource)) (uri : Str)
        (ancestors : List Str) (rts : List (Str × ResourceType))
        (traitsMap : List (Str × Trait)) (apiDef : ApiDef) (dc : DefinitionChoice),
      core.get = none → core.post = none → core.put = none → core.patch = none →
      core.head = none → core.delete = none → core.options = none →
      core.rtype = some dc → dc.name ≠ [] → alookup rts dc.name = none →
      (Resource.mk core nested).postProcess uri ancestors rts traitsMap apiDef
        = .error (str "can't find resource type named :" ++ dc.name)) := by
  refine ⟨?_, ?_, ?_, ?_⟩
  · intro c rts dc hdc hne hl
    rw [ResourceCore.getResourceType, hdc]
    simp only [if_neg hne, hl]
  · intro m uris is traitsMap apiDef hex
    induction is generalizing m with
    | nil =>
      obtain ⟨tDef, hmem, _⟩ := hex
      cases hmem
    | cons tDef rest ih =>
      rw [Method.inheritFromTraits, List.foldlM_cons]
      cases hl : alookup traitsMap tDef.name with
      | none =>
        refine ⟨str "invalid traits name:" ++ tDef.name, ?_⟩
        simp only [hl]
        rfl
      | some t =>
        cases hstep : m.inheritFromATrait uris t tDef.parameters apiDef with
        | error e =>
          refine ⟨e, ?_⟩
          simp only [hl, hstep]
          rfl
        | ok m1 =>
          rcases hex with ⟨tDef', hmem, hl'⟩
          rcases List.mem_cons.mp hmem with he | hmem'
          · subst he
            rw [hl'] at hl
            cases hl
          · obtain ⟨e, hrec⟩ := ih m1 ⟨tDef', hmem', hl'⟩
            refine ⟨e, ?_⟩
            rw [Method.inheritFromTraits] at hrec
            simp only [hl, hstep, except_bind_ok]
            exact hrec
  · intro m uris tDef is₂ traitsMap apiDef hl
    rw [Method.inheritFromTraits, List.foldlM_cons]
    simp only [hl]
    rfl
  · intro core nested uri ancestors rts traitsMap apiDef dc
    intro hg hpo hpu hpa hh hd hop hdc hne hl
    rw [Resource.postProcess]
    have hset : ResourceCore.setMethods { core with uri := trimSpace uri }
        (trimSpace uri :: ancestors) traitsMap apiDef
        = .ok { core with uri := trimSpace uri } := by
      rw [ResourceCore.setMethods]
      simp only [hg, hpo, hpu, hpa, hh, hd, hop]
      rfl
    have hrt : ResourceCore.inheritResourceType { core with uri := trimSpace uri }
        (trimSpace uri :: ancestors) rts apiDef
        = .error (str "can't find resource type named :" ++ dc.name) := by
      rw [ResourceCore.inheritResourceType]
      have hget : ResourceCore.getResourceType { core with uri := trimSpace uri } rts
          = .error (str "can't find resource type named :" ++ dc.name) := by
        rw [ResourceCore.getResourceType]
        simp only [hdc, if_neg hne, hl]
      rw [hget]
      rfl
    simp only [hset, hrt, except_bind_ok, except_bind_error]

/-- Witness for C3 at a concrete input: a resource declaring
`type: nosuch` with no declarations in scope. -/
theorem c3_missing_reference_error_witness :
    ResourceCore.getResourceType
        ({ rtype := some { name := str "nosuch" } } : ResourceCore) []
      = .error (str "can't find resource type named :" ++ str "nosuch")
    ∧ (Resource.mk ({ rtype := some { name := str "nosuch" } } : ResourceCore)
        []).postProcess (str "/x") [] [] [] {}
      = .error (str "can't find resource type named :" ++ str "nosuch")
    ∧ Method.inheritFromTraits {} [] [{ name := str "ghost" }] [] {}
      = .error (str "invalid traits name:" ++ str "ghost") :=
  ⟨c3_missing_reference_error.1 _ [] _ rfl (by decide) rfl,
   c3_missing_reference_error.2.2.2 _ [] (str "/x") [] [] [] {} _
     rfl rfl rfl rfl rfl rfl rfl rfl (by decide) rfl,
   c3_missing_reference_error.2.2.1 {} [] { name := str "ghost" } [] [] {} rfl⟩

/-! ## Placeholder completeness (C8): templates as literal/token segments -/

/-- A template piece: literal text or one `<<name>>` placeholder. -/
inductive Seg : Type
  | lit (s : Str) : Seg
  | tok (n : Str) : Seg

/-- The rendered placeholder token of a name. -/
def tokStr (n : Str) : Str := str "<<" ++ n ++ str ">>"

/-- Render one segment. -/
def renderSeg : Seg → Str
  | .lit s => s
  | .tok n => tokStr n

/-- Render a segment list into the template string. -/
def render (L : List Seg) : Str := (L.map renderSeg).flatten

/-- A character that is not part of any placeholder marker. -/
def cleanChar (c : Char) : Prop := c ≠ '<' ∧ c ≠ '>'

/-- A character allowed in a placeholder name: clean, not the inflector
separator, not whitespace. -/
def nameChar (c : Char) : Prop :=
  c ≠ '<' ∧ c ≠ '>' ∧ c ≠ '|' ∧ isSpaceChar c = false

/-- A well-formed segment relative to a dictionary: literals are free of
marker characters; a token's name is a plain name that resolves in the
dictionary to a marker-free value. -/
def GoodSeg (dicts : Dict) : Seg → Prop
  | .lit s => ∀ c ∈ s, cleanChar c
  | .tok n => (∀ c ∈ n, nameChar c)
      ∧ ∃ v, alookup dicts n = some v ∧ ∀ c ∈ v, cleanChar c

theorem mem_of_hasSub {c0 : Char} {pat : Str} :
    ∀ {s : Str}, hasSub s (c0 :: pat) = true → c0 ∈ s := by
  intro s
  induction s with
  | nil =>
    intro h
    rw [hasSub] at h
    simp [List.isPrefixOf] at h
  | cons c cs ih =>
    intro h
    rw [hasSub] at h
    by_cases hp : (c0 :: pat).isPrefixOf (c :: cs) = true
    · have : c0 = c := by
        simp [List.isPrefixOf] at hp
        exact hp.1
      rw [this]
      exact List.mem_cons_self _ _
    · rw [if_neg hp] at h
      exact List.mem_cons_of_mem _ (ih h)

theorem hasSub_false_of_not_mem {c0 : Char} {pat s : Str} (h : c0 ∉ s) :
    hasSub s (c0 :: pat) = false := by
  cases hs : hasSub s (c0 :: pat) with
  | false => rfl
  | true => exact absurd (mem_of_hasSub hs) h

theorem mem_render {c : Char} {L : List Seg} (h : c ∈ render L) :
    ∃ s ∈ L, c ∈ renderSeg s := by
  rw [render] at h
  obtain ⟨piece, hpiece, hc⟩ := List.mem_flatten.mp h
  obtain ⟨s, hs, rfl⟩ := List.mem_map.mp hpiece
  exact ⟨s, hs, hc⟩

theorem indexOfSub_none_of_not_mem {c0 : Char} :
    ∀ {s : Str}, c0 ∉ s → indexOfSub s [c0] = none := by
  intro s
  induction s with
  | nil => intro _; rfl
  | cons c cs ih =>
    intro h
    rw [indexOfSub]
    have hc : ¬c0 = c := fun he => h (he ▸ List.mem_cons_self c cs)
    rw [if_neg (by simp [List.isPrefixOf]; exact hc)]
    rw [ih (fun hm => h (List.mem_cons_of_mem _ hm))]
    rfl

theorem getParamValue_plain {n : Str} (dicts : Dict)
    (hn : ∀ c ∈ n, nameChar c) : getParamValue n dicts = alookup dicts n := by
  have hsep : '|' ∉ n := fun hm => (hn _ hm).2.2.1 rfl
  have hidx : indexOfSub n (str "|") = none := indexOfSub_none_of_not_mem hsep
  rw [getParamValue, splitParamInflect, hidx]
  cases hl : alookup dicts n with
  | none => simp [hl]
  | some v => simp [hl]

theorem trimRight_last_nospace {c : Char} (y : Str) (hc : isSpaceChar c = false) :
    trimRight (y ++ [c]) = y ++ [c] := by
  rw [trimRight, List.reverse_append]
  simp only [List.reverse_cons, List.reverse_nil, List.nil_append,
    List.singleton_append, List.dropWhile_cons, hc]
  simp

theorem removeParamBracket_tok {n : Str} (_hn : ∀ c ∈ n, isSpaceChar c = false) :
    removeParamBracket (tokStr n) = n := by
  have h1 : trimSpace (tokStr n) = tokStr n := by
    have hl : trimLeft (tokStr n) = tokStr n := by
      rw [tokStr]
      simp [str, trimLeft, List.dropWhile, isSpaceChar]
    have he : tokStr n = ('<' :: '<' :: (n ++ ['>'])) ++ ['>'] := by
      rw [tokStr]
      simp [str]
    rw [trimSpace, hl, he, trimRight_last_nospace _ (by decide)]
  rw [removeParamBracket]
  simp only [h1]
  show ((tokStr n).drop 2).dropLast.dropLast = n
  have h2 : (tokStr n).drop 2 = n ++ ['>', '>'] := by
    rw [tokStr]
    simp [str]
  rw [h2]
  have h3 : n ++ ['>', '>'] = (n ++ ['>']) ++ ['>'] := by simp
  rw [h3, List.dropLast_concat, List.dropLast_concat]

/-- Shape-only well-formedness of a segment: no marker characters inside
literals or names. -/
def SegShape : Seg → Prop
  | .lit s => ∀ c ∈ s, c ≠ '<' ∧ c ≠ '>'
  | .tok n => ∀ c ∈ n, c ≠ '<' ∧ c ≠ '>'

/-- The token strings of a segment list, in order. -/
def toksOf (L : List Seg) : List Str :=
  L.filterMap (fun s => match s with | .tok n => some (tokStr n) | .lit _ => none)

theorem render_cons (sg : Seg) (L : List Seg) :
    render (sg :: L) = renderSeg sg ++ render L := by
  simp [render]

theorem tokStr_expand (n : Str) (r : Str) :
    tokStr n ++ r = '<' :: '<' :: (n ++ '>' :: '>' :: r) := by
  simp [tokStr, str]

theorem tokStr_ne_nil (n : Str) : tokStr n ≠ [] := by
  simp [tokStr, str]

theorem ftg_out_lit : ∀ {s : Str}, (∀ c ∈ s, c ≠ '<') →
    ∀ r, findTokensGo .out (s ++ r) = findTokensGo .out r := by
  intro s
  induction s with
  | nil => intro _ r; rfl
  | cons c cs ih =>
    intro h r
    have hc : ¬c = '<' := h c (List.mem_cons_self _ _)
    rw [List.cons_append, findTokensGo, if_neg hc]
    exact ih (fun c' hc' => h c' (List.mem_cons_of_mem _ hc')) r

theorem ftg_ins : ∀ {n : Str}, (∀ c ∈ n, c ≠ '>') →
    ∀ (acc r : Str), findTokensGo (.ins acc) (n ++ '>' :: '>' :: r)
      = (str "<<" ++ (acc ++ n) ++ str ">>") :: findTokensGo .out r := by
  intro n
  induction n with
  | nil =>
    intro _ acc r
    rw [List.nil_append, findTokensGo, if_pos rfl, findTokensGo, if_pos rfl]
    simp
  | cons c n' ih =>
    intro h acc r
    have hc : ¬c = '>' := h c (List.mem_cons_self _ _)
    rw [List.cons_append, findTokensGo, if_neg hc,
      ih (fun c' hc' => h c' (List.mem_cons_of_mem _ hc'))]
    simp

theorem findTokens_render : ∀ {L : List Seg}, (∀ s ∈ L, SegShape s) →
    findTokensGo .out (render L) = toksOf L := by
  intro L
  induction L with
  | nil => intro _; rfl
  | cons sg L' ih =>
    intro h
    have hsg := h sg (List.mem_cons_self _ _)
    have hL' := fun s hs => h s (List.mem_cons_of_mem _ hs)
    cases sg with
    | lit s =>
      rw [render_cons]
      show findTokensGo .out (s ++ render L') = toksOf (.lit s :: L')
      rw [ftg_out_lit (fun c hc => (hsg c hc).1), ih hL']
      simp [toksOf]
    | tok n =>
      rw [render_cons]
      show findTokensGo .out (tokStr n ++ render L') = toksOf (.tok n :: L')
      rw [tokStr_expand, findTokensGo, if_pos rfl, findTokensGo, if_pos rfl,
        ftg_ins (fun c hc => (hsg c hc).2), ih hL']
      simp [toksOf, tokStr]

theorem rg_skip (old v : Str) :
    ∀ (x r : Str), replaceGo old v (x ++ r) x.length = replaceGo old v r 0 := by
  intro x
  induction x with
  | nil => intro r; rfl
  | cons c x' ih =>
    intro r
    rw [List.cons_append]
    show replaceGo old v (c :: (x' ++ r)) (x'.length + 1) = replaceGo old v r 0
    rw [replaceGo]
    exact ih r

theorem isPrefixOf_cons_ne {a c : Char} (p s : Str) (h : ¬a = c) :
    (a :: p).isPrefixOf (c :: s) = false := by
  simp [List.isPrefixOf]
  exact fun he => absurd he h

theorem isPrefixOf_cons_cons (a : Char) (p s : Str) :
    (a :: p).isPrefixOf (a :: s) = p.isPrefixOf s := by
  simp [List.isPrefixOf]

theorem rg_lit {n v : Str} : ∀ {s : Str}, (∀ c ∈ s, c ≠ '<') →
    ∀ r, replaceGo (tokStr n) v (s ++ r) 0 = s ++ replaceGo (tokStr n) v r 0 := by
  intro s
  induction s with
  | nil => intro _ r; rfl
  | cons c cs ih =>
    intro h r
    have hc : ¬ '<' = c := fun he => (h c (List.mem_cons_self _ _)) he.symm
    have hpf : (tokStr n).isPrefixOf (c :: (cs ++ r)) = false := by
      rw [show tokStr n = '<' :: ('<' :: (n ++ ['>', '>'])) from by simp [tokStr, str]]
      exact isPrefixOf_cons_ne _ _ hc
    rw [List.cons_append, replaceGo, if_neg (by simp [hpf])]
    rw [ih (fun c' hc' => h c' (List.mem_cons_of_mem _ hc')) r]
    rfl

theorem npcore : ∀ {n m : Str} (r : Str), n ≠ m → (∀ c ∈ n, c ≠ '>') →
    (∀ c ∈ m, c ≠ '>') →
    ((n ++ ['>', '>']) : Str).isPrefixOf (m ++ '>' :: '>' :: r) = false := by
  intro n
  induction n with
  | nil =>
    intro m r hne hn hm
    cases m with
    | nil => exact absurd rfl hne
    | cons c m' =>
      rw [List.nil_append, List.cons_append]
      exact isPrefixOf_cons_ne _ _
        (fun he => (hm c (List.mem_cons_self _ _)) he.symm)
  | cons c n' ih =>
    intro m r hne hn hm
    cases m with
    | nil =>
      rw [List.cons_append, List.nil_append]
      exact isPrefixOf_cons_ne _ _ (hn c (List.mem_cons_self _ _))
    | cons d m' =>
      by_cases hcd : c = d
      · subst hcd
        rw [List.cons_append, List.cons_append, isPrefixOf_cons_cons]
        exact ih r (fun he => hne (by rw [he]))
          (fun c' hc' => hn c' (List.mem_cons_of_mem _ hc'))
          (fun c' hc' => hm c' (List.mem_cons_of_mem _ hc'))
      · rw [List.cons_append, List.cons_append]
        exact isPrefixOf_cons_ne _ _ hcd

theorem np_tok_ne {n m : Str} (r : Str) (hne : m ≠ n) (hn : ∀ c ∈ n, c ≠ '>')
    (hm : ∀ c ∈ m, c ≠ '>') :
    (tokStr n).isPrefixOf (tokStr m ++ r) = false := by
  rw [tokStr_expand,
    show tokStr n = '<' :: '<' :: (n ++ ['>', '>']) from by simp [tokStr, str],
    isPrefixOf_cons_cons, isPrefixOf_cons_cons]
  exact npcore r (fun he => hne he.symm) hn hm

theorem rg_tok_eq {n v : Str} (r : Str) :
    replaceGo (tokStr n) v (tokStr n ++ r) 0 = v ++ replaceGo (tokStr n) v r 0 := by
  have hx : tokStr n ++ r = '<' :: (('<' :: (n ++ ['>', '>'])) ++ r) := by
    simp [tokStr, str]
  have hpf : (tokStr n).isPrefixOf ('<' :: (('<' :: (n ++ ['>', '>'])) ++ r))
      = true := by
    rw [← hx]
    exact isPrefixOf_append_self _ _
  rw [hx, replaceGo, if_pos hpf]
  have hlen : (tokStr n).length - 1 = ('<' :: (n ++ ['>', '>'])).length := by
    simp [tokStr, str]
  rw [hlen, rg_skip]

theorem rg_tok_ne {n v m : Str} (hne : m ≠ n) (hn : ∀ c ∈ n, c ≠ '<' ∧ c ≠ '>')
    (hm : ∀ c ∈ m, c ≠ '<' ∧ c ≠ '>') (r : Str) :
    replaceGo (tokStr n) v (tokStr m ++ r) 0
      = tokStr m ++ replaceGo (tokStr n) v r 0 := by
  have hpf0 : (tokStr n).isPrefixOf (tokStr m ++ r) = false :=
    np_tok_ne r hne (fun c hc => (hn c hc).2) (fun c hc => (hm c hc).2)
  have h2 : ∀ w : Str, w = m ++ '>' :: '>' :: r →
      replaceGo (tokStr n) v ('<' :: w) 0 = '<' :: replaceGo (tokStr n) v w 0 := by
    intro w hw
    have hpf1 : (tokStr n).isPrefixOf ('<' :: w) = false := by
      rw [show tokStr n = '<' :: ('<' :: (n ++ ['>', '>'])) from by
        simp [tokStr, str], hw]
      cases m with
      | nil =>
        rw [List.nil_append, isPrefixOf_cons_cons]
        exact isPrefixOf_cons_ne _ _ (by decide)
      | cons d m' =>
        rw [List.cons_append, isPrefixOf_cons_cons]
        exact isPrefixOf_cons_ne _ _
          (fun he => (hm d (List.mem_cons_self _ _)).1 he.symm)
    cases w with
    | nil => simp at hw
    | cons w0 ws =>
      rw [replaceGo, if_neg (by simp [hpf1])]
  have hgt : ∀ r' : Str, replaceGo (tokStr n) v ('>' :: r') 0
      = '>' :: replaceGo (tokStr n) v r' 0 := by
    intro r'
    have : (tokStr n).isPrefixOf ('>' :: r') = false := by
      rw [show tokStr n = '<' :: ('<' :: (n ++ ['>', '>'])) from by
        simp [tokStr, str]]
      exact isPrefixOf_cons_ne _ _ (by decide)
    rw [replaceGo, if_neg (by simp [this])]
  calc replaceGo (tokStr n) v (tokStr m ++ r) 0
      = replaceGo (tokStr n) v ('<' :: ('<' :: (m ++ '>' :: '>' :: r))) 0 := by
        rw [tokStr_expand]
    _ = '<' :: replaceGo (tokStr n) v ('<' :: (m ++ '>' :: '>' :: r)) 0 := by
        rw [replaceGo, if_neg (by rw [← tokStr_expand]; simp [hpf0])]
    _ = '<' :: '<' :: replaceGo (tokStr n) v (m ++ '>' :: '>' :: r) 0 := by
        rw [h2 _ rfl]
    _ = '<' :: '<' :: (m ++ replaceGo (tokStr n) v ('>' :: '>' :: r) 0) := by
        rw [rg_lit (fun c hc => (hm c hc).1)]
    _ = '<' :: '<' :: (m ++ ('>' :: '>' :: replaceGo (tokStr n) v r 0)) := by
        rw [hgt, hgt]
    _ = tokStr m ++ replaceGo (tokStr n) v r 0 := by
        simp [tokStr, str]

/-- Replace every token segment named `n` by the literal `v`. -/
def replaceTokSeg (n v : Str) : Seg → Seg
  | .tok m => if m = n then .lit v else .tok m
  | .lit s => .lit s

theorem replaceAll_render {n v : Str} (hn : ∀ c ∈ n, c ≠ '<' ∧ c ≠ '>') :
    ∀ {L : List Seg}, (∀ s ∈ L, SegShape s) →
      replaceAll (render L) (tokStr n) v = render (L.map (replaceTokSeg n v)) := by
  intro L
  induction L with
  | nil => intro _; rw [replaceAll, if_neg (tokStr_ne_nil n)]; rfl
  | cons sg L' ih =>
    intro h
    have hsg := h sg (List.mem_cons_self _ _)
    have hL' := fun s hs => h s (List.mem_cons_of_mem _ hs)
    have ih' := ih hL'
    rw [replaceAll, if_neg (tokStr_ne_nil n)] at ih' ⊢
    cases sg with
    | lit s =>
      rw [render_cons]
      show replaceGo (tokStr n) v (s ++ render L') 0 = render (List.map _ (.lit s :: L'))
      rw [rg_lit (fun c hc => (hsg c hc).1), ih']
      simp [replaceTokSeg, render_cons, renderSeg]
    | tok m =>
      by_cases hm : m = n
      · subst hm
        rw [render_cons]
        show replaceGo (tokStr m) v (tokStr m ++ render L') 0
            = render (List.map _ (.tok m :: L'))
        rw [rg_tok_eq, ih']
        simp [replaceTokSeg, render_cons, renderSeg]
      · rw [render_cons]
        show replaceGo (tokStr n) v (tokStr m ++ render L') 0
            = render (List.map _ (.tok m :: L'))
        rw [rg_tok_ne hm hn hsg, ih']
        simp [replaceTokSeg, render_cons, renderSeg, hm]

theorem tokStr_inj {m n : Str} (h : tokStr m = tokStr n) : m = n := by
  rw [tokStr, tokStr] at h
  have h1 : m ++ str ">>" = n ++ str ">>" := by
    have h2 : ('<' :: '<' :: (m ++ str ">>")) = ('<' :: '<' :: (n ++ str ">>")) := h
    injection h2 with _ h3
    injection h3
  exact List.append_cancel_right h1

theorem goodSeg_shape {dicts : Dict} {s : Seg} (h : GoodSeg dicts s) : SegShape s := by
  cases s with
  | lit t => exact h
  | tok n => exact fun c hc => ⟨(h.1 c hc).1, (h.1 c hc).2.1⟩

theorem fold_subst_clean (dicts : Dict) :
    ∀ (ts : List Str) (L : List Seg),
      (∀ t ∈ ts, ∃ n, t = tokStr n ∧ (∀ c ∈ n, nameChar c)
        ∧ ∃ v, alookup dicts n = some v ∧ ∀ c ∈ v, cleanChar c) →
      (∀ s ∈ L, SegShape s) →
      (∀ m, Seg.tok m ∈ L → tokStr m ∈ ts) →
      ∀ c ∈ ts.foldl (fun w p =>
          match getParamValue (removeParamBracket p) dicts with
          | none => w
          | some pVal => replaceAll w p pVal) (render L), cleanChar c := by
  intro ts
  induction ts with
  | nil =>
    intro L _ hshape hcov c hc
    obtain ⟨s, hs, hcs⟩ := mem_render hc
    cases s with
    | lit t => exact hshape _ hs c hcs
    | tok m => exact absurd (hcov m hs) (List.not_mem_nil _)
  | cons t ts' ih =>
    intro L hts hshape hcov
    obtain ⟨n, rfl, hnch, v, hv, hvclean⟩ := hts t (List.mem_cons_self _ _)
    rw [List.foldl_cons]
    have hstep : (match getParamValue (removeParamBracket (tokStr n)) dicts with
        | none => render L
        | some pVal => replaceAll (render L) (tokStr n) pVal)
        = render (L.map (replaceTokSeg n v)) := by
      rw [removeParamBracket_tok (fun c hc => (hnch c hc).2.2.2),
        getParamValue_plain dicts hnch, hv]
      exact replaceAll_render
        (fun c hc => ⟨(hnch c hc).1, (hnch c hc).2.1⟩) hshape
    rw [hstep]
    apply ih (L.map (replaceTokSeg n v))
    · exact fun t' ht' => hts t' (List.mem_cons_of_mem _ ht')
    · intro s hs
      obtain ⟨s0, hs0, rfl⟩ := List.mem_map.mp hs
      cases s0 with
      | lit u => exact hshape _ hs0
      | tok m =>
        by_cases hm : m = n
        · simp only [replaceTokSeg, if_pos hm]
          exact hvclean
        · simp only [replaceTokSeg, if_neg hm]
          exact hshape _ hs0
    · intro m hm
      obtain ⟨s0, hs0, heq⟩ := List.mem_map.mp hm
      cases s0 with
      | lit u => simp [replaceTokSeg] at heq
      | tok m' =>
        by_cases hm' : m' = n
        · rw [replaceTokSeg, if_pos hm'] at heq
          cases heq
        · rw [replaceTokSeg, if_neg hm'] at heq
          injection heq with heq
          subst heq
          rcases List.mem_cons.mp (hcov m' hs0) with he | hmem
          · exact absurd (tokStr_inj he) hm'
          · exact hmem

/-- C8 counterexample: the claim says no unresolved placeholder syntax
remains whatever the dictionary contains; with an empty dictionary the
placeholder is left verbatim. -/
theorem c8_unresolved_placeholder_counterexample :
    substituteParams [] (str "<<foo>>") [] = str "<<foo>>"
    ∧ hasSub (str "<<foo>>") (str "<<") = true := ⟨rfl, rfl⟩

/-- C8 (amended): after substitution from a template whose markers occur
only inside well-formed `<<name>>` tokens, the result is free of
placeholder markers provided every token's name resolves in the
dictionary to a marker-free value (and the child value carried no
markers itself); when a name is missing from the dictionary the token is
left verbatim, so the original unconditional claim fails. -/
theorem c8_substitution_complete_amended (dicts : Dict) (L : List Seg)
    (child : Str) (hc1 : hasSub child (str "<<") = false)
    (hc2 : hasSub child (str ">>") = false)
    (hL : ∀ s ∈ L, GoodSeg dicts s) :
    hasSub (substituteParams child (render L) dicts) (str "<<") = false
    ∧ hasSub (substituteParams child (render L) dicts) (str ">>") = false := by
  by_cases hch : child = []
  case neg =>
    rw [substituteParams_child hch hc1 hc2]
    exact ⟨hc1, hc2⟩
  case pos =>
    subst hch
    rw [substituteParams, if_neg (by simp)]
    by_cases hr : render L = []
    · rw [if_pos hr]
      exact ⟨rfl, rfl⟩
    · rw [if_neg hr, findTokens,
        findTokens_render (fun s hs => goodSeg_shape (hL s hs))]
      have hclean := fold_subst_clean dicts (toksOf L) L
        (by
          intro t ht
          obtain ⟨s, hs, hmatch⟩ := List.mem_filterMap.mp ht
          cases s with
          | lit u => cases hmatch
          | tok n =>
            injection hmatch with hmatch
            obtain ⟨hn, v, hv, hvc⟩ := hL _ hs
            exact ⟨n, hmatch.symm, hn, v, hv, hvc⟩)
        (fun s hs => goodSeg_shape (hL s hs))
        (by
          intro m hm
          exact List.mem_filterMap.mpr ⟨Seg.tok m, hm, rfl⟩)
      constructor
      · exact hasSub_false_of_not_mem (fun hmem => (hclean _ hmem).1 rfl)
      · exact hasSub_false_of_not_mem (fun hmem => (hclean _ hmem).2 rfl)

/-- Witness for C8's amended theorem at a concrete input. -/
theorem c8_substitution_complete_amended_witness :
    substituteParams [] (render [Seg.lit (str "x"), Seg.tok (str "a")])
        [(str "a", str "1")] = str "x1"
    ∧ hasSub (substituteParams []
        (render [Seg.lit (str "x"), Seg.tok (str "a")])
        [(str "a", str "1")]) (str "<<") = false :=
  ⟨rfl,
   (c8_substitution_complete_amended [(str "a", str "1")]
     [Seg.lit (str "x"), Seg.tok (str "a")] [] rfl rfl
     (by
       intro s hs
       rcases List.mem_cons.mp hs with he | hs'
       · subst he
         intro c hc
         simp [str] at hc
         subst hc
         exact ⟨by decide, by decide⟩
       · rcases List.mem_cons.mp hs' with he | hs''
         · subst he
           refine ⟨?_, str "1", rfl, ?_⟩
           · intro c hc
             simp [str] at hc
             subst hc
             exact ⟨by decide, by decide, by decide, by decide⟩
           · intro c hc
             simp [str] at hc
             subst hc
             exact ⟨by decide, by decide⟩
         · cases hs'')).1⟩

end Raml
